import Mathlib

/-!
Verification of the Bril text-format tools (`briltxt.py`): the textual
parser with its priority-ordered instruction grammar, the tree-to-record
transformer, the pretty-printer and the import resolver, embedded shallowly.
Machine integers do not occur; Python integers are modelled by `Int`.
The Lark grammar's ordered alternatives (`const.4`, `vop.3`, `eop.2`,
`label.1`, and `def_func` for nested definitions) are realised as a
backtracking recursive-descent parser trying the alternatives in priority
order, as the design notes prescribe.  Python exceptions are modelled by an
error sum: `SyntaxError` for lexer/parser failures, the transformer's
`IndexError` on a function with no return type and no instructions
(`items.pop(0) if type(items[0]) == str` on an empty list), the
`RuntimeError` for duplicate function names, and the fatal exit on a
missing import file.
-/

namespace Briltxt

/-- Whitespace accepted by the `%ignore WS` directive (the subset that can
appear in the inputs considered here). -/
def isWs (c : Char) : Bool := c = ' ' || c = '\n' || c = '\t' || c = '\r'

/-- First character of the `IDENT` terminal: `("_"|"%"|LETTER)`. -/
def isIdentStart (c : Char) : Bool := c = '_' || c = '%' || c.isAlpha

/-- Continuation character of `IDENT`: `("_"|"%"|"."|LETTER|DIGIT)`. -/
def isIdentChar (c : Char) : Bool := isIdentStart c || c = '.' || c.isDigit

/-- First character of Lark's `CNAME` terminal: `("_"|LETTER)`. -/
def isCnameStart (c : Char) : Bool := c = '_' || c.isAlpha

/-- Continuation character of `CNAME`: `("_"|LETTER|DIGIT)`. -/
def isCnameChar (c : Char) : Bool := isCnameStart c || c.isDigit

/-- A string matching the `IDENT` terminal. -/
def isIDENT (s : String) : Bool :=
  match s.data with
  | [] => false
  | c :: cs => isIdentStart c && cs.all isIdentChar

/-- A string matching the `CNAME` terminal. -/
def isCNAME (s : String) : Bool :=
  match s.data with
  | [] => false
  | c :: cs => isCnameStart c && cs.all isCnameChar

/-- Greatest prefix of characters satisfying `p`, with the remainder. -/
def munch (p : Char → Bool) : List Char → List Char × List Char
  | [] => ([], [])
  | c :: cs =>
    if p c then
      match munch p cs with
      | (a, b) => (c :: a, b)
    else ([], c :: cs)

/-- Lexical tokens of the text format.  Word-like tokens (identifiers,
keywords, booleans) are kept as raw strings because Lark's dynamic lexer
classifies them contextually; the parser checks the shape at each use. -/
inductive Tok where
  | word (s : String)
  | num (s : String)
  | colon
  | semi
  | assign
  | lbrace
  | rbrace
  | lparen
  | rparen
deriving DecidableEq

/-- Fuel-indexed tokenizer: skips whitespace and `#` comments, munches
identifier-shaped words, signed decimal integers, and punctuation. -/
def tokenizeF : Nat → List Char → Option (List Tok)
  | 0, _ => none
  | _ + 1, [] => some []
  | fuel + 1, c :: cs =>
    if isWs c then tokenizeF fuel cs
    else if c = '#' then tokenizeF fuel (cs.dropWhile (fun d => d != '\n'))
    else if c = ':' then (tokenizeF fuel cs).map (fun ts => Tok.colon :: ts)
    else if c = ';' then (tokenizeF fuel cs).map (fun ts => Tok.semi :: ts)
    else if c = '=' then (tokenizeF fuel cs).map (fun ts => Tok.assign :: ts)
    else if c = '\x7b' then (tokenizeF fuel cs).map (fun ts => Tok.lbrace :: ts)
    else if c = '\x7d' then (tokenizeF fuel cs).map (fun ts => Tok.rbrace :: ts)
    else if c = '(' then (tokenizeF fuel cs).map (fun ts => Tok.lparen :: ts)
    else if c = ')' then (tokenizeF fuel cs).map (fun ts => Tok.rparen :: ts)
    else if isIdentStart c then
      match munch isIdentChar cs with
      | (w, rest) => (tokenizeF fuel rest).map (fun ts => Tok.word (String.mk (c :: w)) :: ts)
    else if c.isDigit then
      match munch Char.isDigit cs with
      | (w, rest) => (tokenizeF fuel rest).map (fun ts => Tok.num (String.mk (c :: w)) :: ts)
    else if c = '-' || c = '+' then
      match cs with
      | [] => none
      | d :: cs2 =>
        if d.isDigit then
          match munch Char.isDigit cs2 with
          | (w, rest) => (tokenizeF fuel rest).map (fun ts => Tok.num (String.mk (c :: d :: w)) :: ts)
        else none
    else none

/-- Tokenize a character list; the fuel `length + 1` always suffices since
every step consumes at least one character. -/
def tokenize (cs : List Char) : Option (List Tok) := tokenizeF (cs.length + 1) cs

/-- Decimal digit character for a value below ten. -/
def digitChar : Nat → Char
  | 0 => '0' | 1 => '1' | 2 => '2' | 3 => '3' | 4 => '4'
  | 5 => '5' | 6 => '6' | 7 => '7' | 8 => '8' | _ => '9'

/-- Numeric value of a decimal digit character. -/
def digitVal (c : Char) : Nat := c.toNat - 48

/-- Value of a big-endian list of decimal digit characters. -/
def digitsToNat (ds : List Char) : Nat := ds.foldl (fun a c => 10 * a + digitVal c) 0

/-- Python's `int(...)` on the text of a `SIGNED_INT` token: an optional
sign followed by decimal digits. -/
def strToInt (s : String) : Int :=
  match s.data with
  | [] => 0
  | c :: ds =>
    if c = '-' then -(digitsToNat ds : Int)
    else if c = '+' then (digitsToNat ds : Int)
    else (digitsToNat (c :: ds) : Int)

/-- Fuel-indexed decimal rendering of a natural number. -/
def natDigitsF : Nat → Nat → List Char
  | 0, _ => []
  | fuel + 1, n =>
    if n < 10 then [digitChar n]
    else natDigitsF fuel (n / 10) ++ [digitChar (n % 10)]

/-- Decimal digits of a natural number, most significant first. -/
def natDigits (n : Nat) : List Char := natDigitsF (n + 1) n

/-- Python's `str` on an integer. -/
def intStr (i : Int) : String :=
  if i < 0 then String.mk ('-' :: natDigits i.natAbs) else String.mk (natDigits i.natAbs)

/-- A `const` literal: signed integer or boolean (`lit: SIGNED_INT | BOOL`). -/
inductive Lit where
  | int (i : Int)
  | bool (b : Bool)
deriving DecidableEq

/-- A function parameter: `arg: IDENT | "(" IDENT ":" type ")"`; the
transformer stores `None` for the type of a bare identifier. -/
structure Arg where
  name : String
  type : Option String
deriving DecidableEq

mutual
/-- A transformed instruction-or-label, as built by `JSONTransformer`.
`nestedFunc` records that the grammar admits a `def`-introduced function in
instruction position and `def_func` passes the function record through. -/
inductive Instr where
  | const (dest : String) (type : String) (value : Lit)
  | vop (dest : String) (type : String) (op : String) (args : List String)
  | eop (op : String) (args : List String)
  | label (name : String)
  | nestedFunc (f : Func)
/-- A transformed function record: name, parameters, optional return type,
and the instruction list. -/
inductive Func where
  | mk (name : String) (args : List Arg) (retType : Option String) (instrs : List Instr)
end

/-- The function's name. -/
def Func.name : Func → String
  | Func.mk n _ _ _ => n

/-- The function's parameter list. -/
def Func.args : Func → List Arg
  | Func.mk _ a _ _ => a

/-- The function's optional return type. -/
def Func.retType : Func → Option String
  | Func.mk _ _ r _ => r

/-- The function's instruction list. -/
def Func.instrs : Func → List Instr
  | Func.mk _ _ _ is => is

/-- A transformed program: the `imports` key is present only when at least
one `import` directive occurred, mirroring the dict built by `start`. -/
structure Program where
  imports : Option (List String)
  functions : List Func

/-- Error outcomes of the Python code: Lark `SyntaxError`s, the
transformer's `IndexError`, the duplicate-name `RuntimeError`, and the
fatal exit when an imported module file cannot be read. -/
inductive BrilErr where
  | syntaxError
  | indexError
  | duplicateFunctions (names : List String)
  | moduleLoadError (name : String)
deriving DecidableEq

/-- Consume one expected token. -/
def expect (t : Tok) : List Tok → Option (List Tok)
  | u :: r => if u = t then some r else none
  | [] => none

/-- Consume a word token matching `IDENT`. -/
def pIDENT : List Tok → Option (String × List Tok)
  | Tok.word s :: r => if isIDENT s then some (s, r) else none
  | _ => none

/-- Consume a word token matching `CNAME` (also used for `type: CNAME`,
whose transformer returns the bare string). -/
def pCNAME : List Tok → Option (String × List Tok)
  | Tok.word s :: r => if isCNAME s then some (s, r) else none
  | _ => none

/-- Consume a literal: a `SIGNED_INT` (converted by `int`) or a `BOOL`
(`true`/`false`, case-sensitively). -/
def pLit : List Tok → Option (Lit × List Tok)
  | Tok.num s :: r => some (Lit.int (strToInt s), r)
  | Tok.word "true" :: r => some (Lit.bool true, r)
  | Tok.word "false" :: r => some (Lit.bool false, r)
  | _ => none

/-- Consume `IDENT*` greedily. -/
def pIdents : List Tok → List String × List Tok
  | Tok.word s :: r =>
    if isIDENT s then
      match pIdents r with
      | (xs, rest) => (s :: xs, rest)
    else ([], Tok.word s :: r)
  | ts => ([], ts)

/-- `const.4: IDENT ":" type "=" "const" lit ";"`. -/
def pConst (ts : List Tok) : Option (Instr × List Tok) := do
  let (d, ts1) ← pIDENT ts
  let ts2 ← expect Tok.colon ts1
  let (t, ts3) ← pCNAME ts2
  let ts4 ← expect Tok.assign ts3
  match ts4 with
  | Tok.word "const" :: ts5 => do
    let (v, ts6) ← pLit ts5
    let ts7 ← expect Tok.semi ts6
    pure (Instr.const d t v, ts7)
  | _ => none

/-- `vop.3: IDENT ":" type "=" CNAME IDENT* ";"`. -/
def pVop (ts : List Tok) : Option (Instr × List Tok) := do
  let (d, ts1) ← pIDENT ts
  let ts2 ← expect Tok.colon ts1
  let (t, ts3) ← pCNAME ts2
  let ts4 ← expect Tok.assign ts3
  let (op, ts5) ← pCNAME ts4
  match pIdents ts5 with
  | (args, ts6) => do
    let ts7 ← expect Tok.semi ts6
    pure (Instr.vop d t op args, ts7)

/-- `eop.2: CNAME IDENT* ";"`. -/
def pEop (ts : List Tok) : Option (Instr × List Tok) := do
  let (op, ts1) ← pCNAME ts
  match pIdents ts1 with
  | (args, ts2) => do
    let ts3 ← expect Tok.semi ts2
    pure (Instr.eop op args, ts3)

/-- `label.1: IDENT ":"`. -/
def pLabel (ts : List Tok) : Option (Instr × List Tok) := do
  let (l, ts1) ← pIDENT ts
  let ts2 ← expect Tok.colon ts1
  pure (Instr.label l, ts2)

/-- The four plain alternatives of `?instr`, tried in the priority order
`const.4`, `vop.3`, `eop.2`, `label.1`. -/
def pFlat (ts : List Tok) : Option (Instr × List Tok) :=
  (pConst ts <|> pVop ts) <|> (pEop ts <|> pLabel ts)

/-- One `arg`: a bare `IDENT` (type `None`) or `"(" IDENT ":" type ")"`. -/
def pArg : List Tok → Option (Arg × List Tok)
  | Tok.word s :: r => if isIDENT s then some (Arg.mk s none, r) else none
  | Tok.lparen :: r => do
    let (n, r1) ← pIDENT r
    let r2 ← expect Tok.colon r1
    let (t, r3) ← pCNAME r2
    let r4 ← expect Tok.rparen r3
    pure (Arg.mk n (some t), r4)
  | _ => none

/-- `arg*` greedily. -/
def pArgs : Nat → List Tok → List Arg × List Tok
  | 0, ts => ([], ts)
  | fuel + 1, ts =>
    match pArg ts with
    | none => ([], ts)
    | some (a, ts1) =>
      match pArgs fuel ts1 with
      | (as_, rest) => (a :: as_, rest)

mutual
/-- `func: CNAME arg* "{" instr* "}" | CNAME arg* ":" type "{" instr* "}"`,
yielding the transformed record directly (the transformer's `func` method
separates args, the optional return-type string and the instructions).  The
accompanying `Bool` reports whether the transformer would die on this
subtree: its `func` method evaluates `type(items[0])` on the empty items
list — an `IndexError` — exactly when a function node (this one or one
nested via `def`) has no return type and no instructions. -/
def pFunc : Nat → List Tok → Option ((Func × Bool) × List Tok)
  | 0, _ => none
  | fuel + 1, ts =>
    match pCNAME ts with
    | none => none
    | some (n, ts1) =>
      match pArgs (fuel + 1) ts1 with
      | (args, ts2) =>
        match ts2 with
        | Tok.colon :: ts3 =>
          match pCNAME ts3 with
          | none => none
          | some (t, ts4) =>
            match ts4 with
            | Tok.lbrace :: ts5 =>
              match pInstrs fuel ts5 with
              | ((is, bad), ts6) =>
                match ts6 with
                | Tok.rbrace :: ts7 => some ((Func.mk n args (some t) is, bad), ts7)
                | _ => none
            | _ => none
        | Tok.lbrace :: ts3 =>
          match pInstrs fuel ts3 with
          | ((is, bad), ts4) =>
            match ts4 with
            | Tok.rbrace :: ts5 =>
              some ((Func.mk n args none is, is.isEmpty || bad), ts5)
            | _ => none
        | _ => none

/-- `?instr: def_func | const | vop | eop | label`; `def_func: "def" func`
passes the nested function record straight through (`items.pop(0)`). -/
def pInstr : Nat → List Tok → Option ((Instr × Bool) × List Tok)
  | 0, _ => none
  | fuel + 1, ts =>
    match ts with
    | Tok.word "def" :: ts1 =>
      match pFunc fuel ts1 with
      | some ((f, bad), ts2) => some ((Instr.nestedFunc f, bad), ts2)
      | none => (pFlat ts).map (fun ir => ((ir.1, false), ir.2))
    | _ => (pFlat ts).map (fun ir => ((ir.1, false), ir.2))

/-- `instr*` greedily, accumulating the crash flags of nested functions. -/
def pInstrs : Nat → List Tok → (List Instr × Bool) × List Tok
  | 0, ts => (([], false), ts)
  | fuel + 1, ts =>
    match pInstr fuel ts with
    | none => (([], false), ts)
    | some ((i, bad), ts1) =>
      match pInstrs fuel ts1 with
      | ((is, bad2), rest) => ((i :: is, bad || bad2), rest)
end

/-- `func*` greedily, accumulating the transformer-crash flags. -/
def pFuncs : Nat → List Tok → (List Func × Bool) × List Tok
  | 0, ts => (([], false), ts)
  | fuel + 1, ts =>
    match pFunc (fuel + 1) ts with
    | none => (([], false), ts)
    | some ((f, bad), ts1) =>
      match pFuncs fuel ts1 with
      | ((fs, bad2), rest) => ((f :: fs, bad || bad2), rest)

/-- `imp: "import" CNAME ";"`, yielding the bare module name. -/
def pImp : List Tok → Option (String × List Tok)
  | Tok.word "import" :: Tok.word m :: Tok.semi :: rest =>
    if isCNAME m then some (m, rest) else none
  | _ => none

/-- `imp*` greedily. -/
def pImps : Nat → List Tok → List String × List Tok
  | 0, ts => ([], ts)
  | fuel + 1, ts =>
    match pImp ts with
    | none => ([], ts)
    | some (m, ts1) =>
      match pImps fuel ts1 with
      | (ms, rest) => (m :: ms, rest)

/-- `start: imp* func*`. -/
def pStart (fuel : Nat) (ts : List Tok) : (List String × List Func × Bool) × List Tok :=
  match pImps fuel ts with
  | (ms, ts1) =>
    match pFuncs fuel ts1 with
    | ((fs, bad), ts2) => ((ms, fs, bad), ts2)

/-- The duplicate scan of `parse_bril`, modelled operator-for-operator:
`dups = [f for f in function_names if f in unique and not unique.add(f)]`.
Because `and` short-circuits, `unique.add` runs only when `f` is already a
member of `unique` — the accumulator is updated in exactly that branch. -/
def parseDups (names : List String) : List String :=
  (names.foldl
    (fun acc f => if f ∈ acc.1 then (f :: acc.1, acc.2 ++ [f]) else acc)
    (([] : List String), ([] : List String))).2

/-- Lark parse plus `JSONTransformer`: tokenize, parse `start` requiring the
whole input to be consumed, fail with the transformer's `IndexError` when a
function has no return type and no instructions, and otherwise assemble the
program dict (`imports` key only when non-empty). -/
def parseText (txt : String) : Except BrilErr Program :=
  match tokenize txt.data with
  | none => Except.error BrilErr.syntaxError
  | some ts =>
    match pStart (ts.length + 1) ts with
    | ((ms, fs, bad), []) =>
      if bad then Except.error BrilErr.indexError
      else Except.ok (Program.mk (if ms.isEmpty then none else some ms) fs)
    | (_, _ :: _) => Except.error BrilErr.syntaxError

/-- `parse_bril`: parse and transform, then run the duplicate scan and raise
`RuntimeError('Function(s) defined twice: ...')` when it reports names. -/
def parse_bril (txt : String) : Except BrilErr Program :=
  match parseText txt with
  | Except.error e => Except.error e
  | Except.ok p =>
    match parseDups (p.functions.map Func.name) with
    | [] => Except.ok p
    | ds => Except.error (BrilErr.duplicateFunctions ds)

/-- `' '.join(...)`: arguments separated by single spaces. -/
def joinSp : List String → String
  | [] => ""
  | [x] => x
  | x :: y :: rest => x ++ " " ++ joinSp (y :: rest)

/-- `str(value).lower()`: Python renders `True`/`False`, lower-cased here to
`true`/`false`; integers print in decimal. -/
def litStr : Lit → String
  | Lit.int i => intStr i
  | Lit.bool true => "true"
  | Lit.bool false => "false"

/-- `instr_to_string`.  The Python function reads dict keys, so it yields
`KeyError` (modelled as `none`) when the `op` is the word `const` but the
record carries no `value` (a value/effect op named `const`), and when the
record has no `op` at all (a label or a nested function record). -/
def instr_to_string : Instr → Option String
  | Instr.const d t v => some (d ++ ": " ++ t ++ " = const " ++ litStr v)
  | Instr.vop d t op args =>
    if op = "const" then none
    else some (d ++ ": " ++ t ++ " = " ++ op ++ " " ++ joinSp args)
  | Instr.eop op args =>
    if op = "const" then none
    else some (op ++ " " ++ joinSp args)
  | Instr.label _ => none
  | Instr.nestedFunc _ => none

/-- `print_instr`: `'  {};'.format(instr_to_string(instr))`. -/
def print_instr (i : Instr) : Option String :=
  (instr_to_string i).map (fun s => "  " ++ s ++ ";")

/-- `print_label`: `'{}:'.format(label['label'])` — no indentation. -/
def print_label (l : String) : String := l ++ ":"

/-- The line `print_func` emits for one entry of `instrs`: the label branch
when the record has a `label` key, `print_instr` otherwise. -/
def instrLine : Instr → Option String
  | Instr.label l => some (print_label l)
  | i => print_instr i

/-- Lines for a list of instructions, failing when any line does. -/
def instrLines : List Instr → Option (List String)
  | [] => some []
  | i :: rest =>
    match instrLine i, instrLines rest with
    | some s, some ls => some (s :: ls)
    | _, _ => none

/-- `print_func`: the header `'{} {{'.format(func['name'], ...)` (the second
format argument is ignored — the pattern has one placeholder), one line per
instruction or label, and the closing brace. -/
def print_func (f : Func) : Option (List String) :=
  match instrLines f.instrs with
  | none => none
  | some body => some ((f.name ++ " \x7b") :: body ++ ["\x7d"])

/-- Lines of `print_prog`: all functions in order. -/
def print_prog : List Func → Option (List String)
  | [] => some []
  | f :: rest =>
    match print_func f, print_prog rest with
    | some ls, some rs => some (ls ++ rs)
    | _, _ => none

/-- The full text printed for a program: every emitted line followed by a
newline. -/
def toText (p : Program) : Option String :=
  (print_prog p.functions).map (fun ls => String.join (ls.map (fun l => l ++ "\n")))

/-- The module loader: an association list from module name to the contents
of `name + '.bril'`; `none` models the `IOError` of a missing file. -/
def lookupStr : List (String × String) → String → Option String
  | [], _ => none
  | (k, v) :: rest, m => if k = m then some v else lookupStr rest m

/-- Membership test on the keys of the accumulated function dict. -/
def dictHasKey (m : List (String × Func)) (k : String) : Bool :=
  m.any (fun p => p.1 == k)

/-- Python-dict insertion: overwriting an existing key keeps its position,
a new key is appended. -/
def dictInsert (m : List (String × Func)) (f : Func) : List (String × Func) :=
  if dictHasKey m (Func.name f) then
    m.map (fun p => if p.1 == Func.name f then (p.1, f) else p)
  else m ++ [(Func.name f, f)]

/-- `{f['name']: f for f in prog['functions']}`. -/
def seedMap (fs : List Func) : List (String × Func) := fs.foldl dictInsert []

/-- A Python `set(...)` of strings, modelled as a first-occurrence-order
duplicate-free list. -/
def dedupFirst (l : List String) : List String :=
  l.foldl (fun acc x => if x ∈ acc then acc else acc ++ [x]) []

/-- `to_import.update(imports.difference(imported))`: append each name not
already pending and not already imported. -/
def addNew (pending imported xs : List String) : List String :=
  xs.foldl (fun pd x => if x ∈ pd ∨ x ∈ imported then pd else pd ++ [x]) pending

/-- The collision set of one merge step: names of the loaded module's
functions that are already keys of the accumulated dict. -/
def collisions (merged : List (String × Func)) (fs : List Func) : List String :=
  dedupFirst ((fs.map Func.name).filter (fun n => dictHasKey merged n))

/-- The `while len(to_import) > 0` loop of `unroll_imports`, with explicit
fuel (`none` = fuel ran out; the loop itself terminates, see the bound
theorem).  The returned first component is the final `imported` list, most
recent first — the modules actually loaded. -/
def unrollLoop (env : List (String × String)) :
    Nat → List String → List String → List (String × Func) →
    Option (List String × Except BrilErr (List (String × Func)))
  | _, [], imported, merged => some (imported, Except.ok merged)
  | 0, _ :: _, _, _ => none
  | fuel + 1, m :: rest, imported, merged =>
    match lookupStr env m with
    | none => some (m :: imported, Except.error (BrilErr.moduleLoadError m))
    | some txt =>
      match parse_bril txt with
      | Except.error e => some (m :: imported, Except.error e)
      | Except.ok loaded =>
        match collisions merged loaded.functions with
        | [] =>
          unrollLoop env fuel
            (addNew rest (m :: imported) (dedupFirst (loaded.imports.getD [])))
            (m :: imported)
            (loaded.functions.foldl dictInsert merged)
        | ds => some (m :: imported, Except.error (BrilErr.duplicateFunctions ds))

/-- `unroll_imports`: return the program unchanged when the `imports` key is
absent; otherwise run the merge loop seeded with the program's own
functions and rebuild a program that has only a `functions` key. -/
def unroll_imports (env : List (String × String)) (fuel : Nat) (prog : Program) :
    Option (List String × Except BrilErr Program) :=
  match prog.imports with
  | none => some ([], Except.ok prog)
  | some imps =>
    match unrollLoop env fuel (dedupFirst imps) [] (seedMap prog.functions) with
    | none => none
    | some (imp, Except.error e) => some (imp, Except.error e)
    | some (imp, Except.ok merged) =>
      some (imp, Except.ok (Program.mk none (merged.map Prod.snd)))

/-- Import names mentioned by a module text (empty when it fails to parse);
used only to bound the loop's fuel. -/
def importsOfText (txt : String) : List String :=
  match parse_bril txt with
  | Except.ok p => p.imports.getD []
  | Except.error _ => []

/-- Every module name that can ever enter the pending set: the program's own
imports plus the imports of every module body in the environment. -/
def moduleUniverse (env : List (String × String)) (prog : Program) : List String :=
  dedupFirst (prog.imports.getD [] ++ (env.map (fun pr => importsOfText pr.2)).flatten)

/-- Sufficient fuel for `unroll_imports`: one more than the size of the
universe of module names. -/
def unrollBound (env : List (String × String)) (prog : Program) : Nat :=
  (moduleUniverse env prog).length + 1

/-- Is this entry of an instruction list a label record (`'label' in ...`)? -/
def Instr.isLabel : Instr → Bool
  | Instr.label _ => true
  | _ => false

/-- Instructions on which `instr_to_string` does not raise: no nested
function record and no value/effect operation whose `op` is `const`. -/
def printableInstr : Instr → Bool
  | Instr.const _ _ _ => true
  | Instr.vop _ _ op _ => op != "const"
  | Instr.eop op _ => op != "const"
  | Instr.label _ => true
  | Instr.nestedFunc _ => false

/-- A function the pretty-printer's header is faithful to (no parameters
and no return type) whose body it can print. -/
def printableFunc (f : Func) : Bool :=
  (Func.args f).isEmpty && (Func.retType f).isNone && (Func.instrs f).all printableInstr

/-- All of the program's functions are printable. -/
def printableProg (p : Program) : Bool := p.functions.all printableFunc

/-- Token shapes the parser guarantees for the strings it stores: they were
read off `IDENT`/`CNAME` tokens (nested functions are accounted for by the
enclosing parse). -/
def validInstr : Instr → Bool
  | Instr.const d t _ => isIDENT d && isCNAME t
  | Instr.vop d t op args => isIDENT d && isCNAME t && isCNAME op && args.all isIDENT
  | Instr.eop op args => isCNAME op && args.all isIDENT
  | Instr.label l => isIDENT l
  | Instr.nestedFunc _ => true

/-- The name is a `CNAME` and every instruction's strings are well-shaped. -/
def validFunc (f : Func) : Bool :=
  isCNAME (Func.name f) && (Func.instrs f).all validInstr

/-- Tokens of a printed literal. -/
def litToks : Lit → List Tok
  | Lit.int i => [Tok.num (intStr i)]
  | Lit.bool true => [Tok.word "true"]
  | Lit.bool false => [Tok.word "false"]

/-- Tokens of a printed instruction line. -/
def instrToks : Instr → List Tok
  | Instr.const d t v =>
    [Tok.word d, Tok.colon, Tok.word t, Tok.assign, Tok.word "const"] ++ litToks v ++ [Tok.semi]
  | Instr.vop d t op args =>
    [Tok.word d, Tok.colon, Tok.word t, Tok.assign, Tok.word op] ++ args.map Tok.word ++ [Tok.semi]
  | Instr.eop op args => Tok.word op :: args.map Tok.word ++ [Tok.semi]
  | Instr.label l => [Tok.word l, Tok.colon]
  | Instr.nestedFunc _ => []

/-- Tokens of a printed function body. -/
def bodyToks (is : List Instr) : List Tok := (is.map instrToks).flatten

/-- Tokens of a printed function. -/
def funcToks (f : Func) : List Tok :=
  Tok.word (Func.name f) :: Tok.lbrace :: bodyToks (Func.instrs f) ++ [Tok.rbrace]

/-- Tokens of a printed program. -/
def progToks (fs : List Func) : List Tok := (fs.map funcToks).flatten

/-- Enough fuel for `pFuncs` to parse this list of printed functions: each
function needs its instruction count plus two. -/
def fsFuel : List Func → Nat
  | [] => 0
  | f :: rest => (Func.instrs f).length + 2 + fsFuel rest

/-- The function's header prints faithfully: no parameters and no return
type (the printer's one-placeholder format string drops both). -/
def trivialHeader (f : Func) : Bool :=
  (Func.args f).isEmpty && (Func.retType f).isNone

/-- The head of the list exists and fails `p` (used as a token boundary). -/
def headNot (p : Char → Bool) : List Char → Prop
  | [] => False
  | c :: _ => p c = false

/-- `Chunk a ta k`: running the tokenizer on `a ++ b` consumes `a` in `k`
steps producing the tokens `ta` before continuing with `b`; word and number
tokens must be followed (inside `a`) by a character that stops the munch. -/
inductive Chunk : List Char → List Tok → Nat → Prop where
  | nil : Chunk [] [] 0
  | ws : ∀ {c cs ts k}, isWs c = true → Chunk cs ts k → Chunk (c :: cs) ts (k + 1)
  | colon : ∀ {cs ts k}, Chunk cs ts k → Chunk (':' :: cs) (Tok.colon :: ts) (k + 1)
  | semi : ∀ {cs ts k}, Chunk cs ts k → Chunk (';' :: cs) (Tok.semi :: ts) (k + 1)
  | assign : ∀ {cs ts k}, Chunk cs ts k → Chunk ('=' :: cs) (Tok.assign :: ts) (k + 1)
  | lbrace : ∀ {cs ts k}, Chunk cs ts k → Chunk ('\x7b' :: cs) (Tok.lbrace :: ts) (k + 1)
  | rbrace : ∀ {cs ts k}, Chunk cs ts k → Chunk ('\x7d' :: cs) (Tok.rbrace :: ts) (k + 1)
  | word : ∀ {c w cs ts k}, isIdentStart c = true → w.all isIdentChar = true →
      headNot isIdentChar cs → Chunk cs ts k →
      Chunk (c :: (w ++ cs)) (Tok.word (String.mk (c :: w)) :: ts) (k + 1)
  | numP : ∀ {d w cs ts k}, d ∈ ['0', '1', '2', '3', '4', '5', '6', '7', '8', '9'] →
      w.all Char.isDigit = true →
      headNot Char.isDigit cs → Chunk cs ts k →
      Chunk (d :: (w ++ cs)) (Tok.num (String.mk (d :: w)) :: ts) (k + 1)
  | numN : ∀ {d w cs ts k}, d ∈ ['0', '1', '2', '3', '4', '5', '6', '7', '8', '9'] →
      w.all Char.isDigit = true →
      headNot Char.isDigit cs → Chunk cs ts k →
      Chunk ('-' :: d :: (w ++ cs)) (Tok.num (String.mk ('-' :: d :: w)) :: ts) (k + 1)

/-- Token shapes that can follow a printed label line: a closing brace or
the first two tokens of another printed instruction line.  On these the
higher-priority alternatives `const` and `vop` fail after the label's
colon, so the parse falls through to `label`. -/
def follow2Ok : List Tok → Prop
  | Tok.rbrace :: _ => True
  | Tok.word _ :: Tok.colon :: _ => True
  | Tok.word _ :: Tok.semi :: _ => True
  | Tok.word _ :: Tok.word _ :: _ => True
  | _ => False

/-- The last function of the given name in the list, if any — the value a
Python dict comprehension keyed on names retains. -/
def lastNamed (n : String) (fs : List Func) : Option Func :=
  fs.foldl (fun acc f => if Func.name f == n then some f else acc) none

/-- Lookup in the association-list model of a Python dict. -/
def dictGet : List (String × Func) → String → Option Func
  | [], _ => none
  | (k, v) :: rest, n => if k = n then some v else dictGet rest n

/-! ## Properties of the duplicate scan in `parse_bril` -/

theorem parseDups_aux (names : List String) (d : List String) :
    names.foldl (fun acc f => if f ∈ acc.1 then (f :: acc.1, acc.2 ++ [f]) else acc)
      (([] : List String), d) = ([], d) := by
  induction names generalizing d with
  | nil => rfl
  | cons n rest ih =>
    rw [List.foldl_cons, if_neg (List.not_mem_nil n)]
    exact ih d

/-- The `unique` set of the comprehension is only ever extended in the
branch that requires prior membership, so it stays empty and no name is
ever reported. -/
theorem parseDups_eq_nil (names : List String) : parseDups names = [] := by
  unfold parseDups
  rw [parseDups_aux]

/-- C1: the spec says that an input defining the same function name twice
fails with `DuplicateFunctionError` and produces no program.  In the code
the scan `[f for f in function_names if f in unique and not unique.add(f)]`
never adds anything to `unique` (the `and` short-circuits before
`unique.add` on first occurrences), so the scan reports nothing for any
name list, and a text with two functions named `main` parses successfully
to a program containing both. -/
theorem c1_duplicate_detection_never_fires :
    (∀ names : List String, parseDups names = []) ∧
    parse_bril "main \x7b x: int = const 1; \x7d main \x7b x: int = const 2; \x7d" =
      Except.ok (Program.mk none
        [Func.mk "main" [] none [Instr.const "x" "int" (Lit.int 1)],
         Func.mk "main" [] none [Instr.const "x" "int" (Lit.int 2)]]) :=
  ⟨parseDups_eq_nil, rfl⟩

/-- C2: the four-line body `a: int = const 4; b: int = add a a; print b;
loop:` parses and transforms to exactly `Const`, `ValueOp`, `EffectOp`,
`Label` in that order, under the priority-ordered alternatives. -/
theorem c2_classification_priority :
    parse_bril "main \x7b\n  a: int = const 4;\n  b: int = add a a;\n  print b;\n  loop:\n\x7d\n" =
      Except.ok (Program.mk none
        [Func.mk "main" [] none
          [Instr.const "a" "int" (Lit.int 4),
           Instr.vop "b" "int" "add" ["a", "a"],
           Instr.eop "print" ["b"],
           Instr.label "loop"]]) := rfl

/-- C3: the grammar accepts `main { }` (zero instructions), but the
transformer's `func` method evaluates `type(items[0])` on the empty items
list and dies with an `IndexError` instead of returning a program. -/
theorem c3_empty_function_transformer_crash :
    parse_bril "main \x7b \x7d" = Except.error BrilErr.indexError := rfl

/-- C10: in instruction position the grammar accepts `def inner { ... }`,
and the transformer places the nested function record directly into the
enclosing function's instruction sequence. -/
theorem c10_nested_def_in_instrs :
    parse_bril "main \x7b def inner \x7b x: int = const 1; \x7d \x7d" =
      Except.ok (Program.mk none
        [Func.mk "main" [] none
          [Instr.nestedFunc (Func.mk "inner" [] none [Instr.const "x" "int" (Lit.int 1)])]]) := rfl

/-! ## Indentation of the pretty-printer (C4) -/

/-- C4 counterexample: it is not the case that every instruction-or-label
line of the printed output starts with two spaces — `print_label` emits the
label line `l:` with no indentation at all. -/
theorem c4_counterexample :
    ¬ (∀ (p : Program) (f : Func) (i : Instr) (s : String),
        f ∈ p.functions → i ∈ Func.instrs f → instrLine i = some s →
        s.data.take 2 = [' ', ' ']) := by
  intro h
  have h2 := h (Program.mk none [Func.mk "main" [] none [Instr.label "l"]])
    (Func.mk "main" [] none [Instr.label "l"]) (Instr.label "l") "l:"
    (by simp) (by simp [Func.instrs]) rfl
  exact absurd h2 (by decide)

/-- A string assembled from a two-space indent begins with two spaces. -/
theorem indent2 (u v : String) : (("  " ++ u) ++ v).data.take 2 = [' ', ' '] := rfl

/-- C4 amended: in `print_func`'s output the header line is the unindented
`name {` and the final line the unindented `}`; every line produced for a
non-label instruction starts with exactly two spaces, while a label line is
the bare `label:` with no indentation added. -/
theorem c4_indentation (p : Program) (f : Func) (i : Instr) (L : List String) (s : String)
    (hf : f ∈ p.functions) (hL : print_func f = some L) (hi : i ∈ Func.instrs f)
    (hs : instrLine i = some s) :
    L.head? = some (Func.name f ++ " \x7b") ∧
    L.getLast? = some "\x7d" ∧
    (Instr.isLabel i = false → s.data.take 2 = [' ', ' ']) ∧
    (∀ l, i = Instr.label l → s = l ++ ":") := by
  unfold print_func at hL
  cases hbody : instrLines (Func.instrs f) with
  | none => rw [hbody] at hL; exact absurd hL (by simp)
  | some body =>
    rw [hbody] at hL
    have hLval : L = (Func.name f ++ " \x7b") :: body ++ ["\x7d"] := by
      simpa using hL.symm
    subst hLval
    refine ⟨rfl, ?_, ?_, ?_⟩
    · rw [show (Func.name f ++ " \x7b") :: body ++ ["\x7d"] =
          ((Func.name f ++ " \x7b") :: body) ++ ["\x7d"] from rfl]
      exact List.getLast?_concat _
    · intro hnl
      cases i with
      | label l => simp [Instr.isLabel] at hnl
      | nestedFunc g => simp [instrLine, print_instr, instr_to_string] at hs
      | const d t v =>
        simp only [instrLine, print_instr, instr_to_string, Option.map_some'] at hs
        rw [← Option.some_inj.mp hs]
        exact indent2 _ _
      | vop d t op args =>
        by_cases hop : op = "const"
        · simp [instrLine, print_instr, instr_to_string, hop] at hs
        · simp only [instrLine, print_instr, instr_to_string, if_neg hop,
            Option.map_some'] at hs
          rw [← Option.some_inj.mp hs]
          exact indent2 _ _
      | eop op args =>
        by_cases hop : op = "const"
        · simp [instrLine, print_instr, instr_to_string, hop] at hs
        · simp only [instrLine, print_instr, instr_to_string, if_neg hop,
            Option.map_some'] at hs
          rw [← Option.some_inj.mp hs]
          exact indent2 _ _
    · intro l hil
      subst hil
      simp only [instrLine, print_label, Option.some_inj] at hs
      exact hs.symm

/-- Witness for `c4_indentation` at a one-instruction function. -/
theorem c4_indentation_witness : "  ret ;".data.take 2 = [' ', ' '] := by
  have h := c4_indentation (Program.mk none [Func.mk "m" [] none [Instr.eop "ret" []]])
    (Func.mk "m" [] none [Instr.eop "ret" []]) (Instr.eop "ret" [])
    ["m \x7b", "  ret ;", "\x7d"] "  ret ;" (by simp) rfl (by simp [Func.instrs]) rfl
  exact h.2.2.1 rfl

/-! ## Resolver behavior on absent or empty imports (C7) -/

/-- C7 counterexample: `unroll_imports` does not return the program
unchanged whenever `imports` is absent *or empty* — with a present-but-empty
`imports` list the early return is skipped and the result is rebuilt as
`dict(functions=...)`, dropping the `imports` key. -/
theorem c7_counterexample :
    ¬ (∀ (env : List (String × String)) (fuel : Nat) (prog : Program)
         (r : List String × Except BrilErr Program),
        (prog.imports = none ∨ prog.imports = some []) →
        unroll_imports env fuel prog = some r → r.2 = Except.ok prog) := by
  intro h
  have h2 := h [] 0 (Program.mk (some []) [Func.mk "f" [] none []])
    ([], Except.ok (Program.mk none [Func.mk "f" [] none []])) (Or.inr rfl) rfl
  simp only [Except.ok.injEq, Program.mk.injEq] at h2
  exact Option.noConfusion h2.1

/-- C7 amended: with `imports` absent the program is returned unchanged;
with `imports` present but empty the loop body never runs and the result is
a program with no `imports` key whose functions are the originals pushed
through the name-keyed dict comprehension (so duplicates by name collapse,
the last definition winning). -/
theorem c7_no_imports_behavior (env : List (String × String)) (fuel : Nat) (prog : Program) :
    (prog.imports = none → unroll_imports env fuel prog = some ([], Except.ok prog)) ∧
    (prog.imports = some [] →
      unroll_imports env fuel prog =
        some ([], Except.ok (Program.mk none ((seedMap prog.functions).map Prod.snd)))) := by
  constructor
  · intro h
    unfold unroll_imports
    rw [h]
  · intro h
    unfold unroll_imports
    rw [h]
    show (match unrollLoop env fuel [] [] (seedMap prog.functions) with
      | none => none
      | some (imp, Except.error e) => some (imp, Except.error e)
      | some (imp, Except.ok merged) =>
        some (imp, Except.ok (Program.mk none (merged.map Prod.snd)))) = _
    rw [show unrollLoop env fuel [] [] (seedMap prog.functions) =
      some ([], Except.ok (seedMap prog.functions)) from by
        cases fuel <;> rfl]

/-- Witness for `c7_no_imports_behavior`: a program with a present-but-empty
imports list resolves to one with the imports key gone. -/
theorem c7_no_imports_behavior_witness :
    unroll_imports [] 0 (Program.mk (some []) [Func.mk "f" [] none []]) =
      some ([], Except.ok (Program.mk none [Func.mk "f" [] none []])) :=
  (c7_no_imports_behavior [] 0 (Program.mk (some []) [Func.mk "f" [] none []])).2 rfl

/-! ## Dict-model lemmas and root-level duplicates (C9) -/

theorem dictHasKey_true_get (m : List (String × Func)) (k : String)
    (h : dictHasKey m k = true) : ∃ v, dictGet m k = some v := by
  induction m with
  | nil => simp [dictHasKey] at h
  | cons p rest ih =>
    obtain ⟨k1, v1⟩ := p
    by_cases hk : k1 = k
    · exact ⟨v1, by simp [dictGet, hk]⟩
    · simp only [dictHasKey, List.any_cons, Bool.or_eq_true, beq_iff_eq] at h
      rcases h with h | h

      · exact absurd h hk
      · obtain ⟨v, hv⟩ := ih h
        exact ⟨v, by simp [dictGet, hk, hv]⟩

theorem dictHasKey_false_get (m : List (String × Func)) (k : String)
    (h : dictHasKey m k = false) : dictGet m k = none := by
  induction m with
  | nil => rfl
  | cons p rest ih =>
    obtain ⟨k1, v1⟩ := p
    simp only [dictHasKey, List.any_cons, Bool.or_eq_false_iff, beq_eq_false_iff_ne] at h
    simp [dictGet, h.1, ih (by simpa [dictHasKey] using h.2)]

theorem dictGet_append (m1 m2 : List (String × Func)) (n : String) :
    dictGet (m1 ++ m2) n =
      (match dictGet m1 n with
       | some v => some v
       | none => dictGet m2 n) := by
  induction m1 with
  | nil => simp [dictGet]
  | cons p rest ih =>
    obtain ⟨k1, v1⟩ := p
    by_cases hk : k1 = n <;> simp [dictGet, hk, ih]

theorem dictGet_replace (m : List (String × Func)) (f : Func) (n : String) :
    dictGet (m.map (fun p => if p.1 == Func.name f then (p.1, f) else p)) n =
      (dictGet m n).map (fun v => if n = Func.name f then f else v) := by
  induction m with
  | nil => rfl
  | cons p rest ih =>
    obtain ⟨k1, v1⟩ := p
    simp only [List.map_cons]
    by_cases hf : k1 = Func.name f
    · have e1 : (if (k1 == Func.name f) = true then (k1, f) else (k1, v1)) = (k1, f) :=
        if_pos (by simp [hf])
      rw [e1]
      by_cases hn : k1 = n
      · subst hn
        simp only [dictGet, if_pos rfl]
        simp [hf]
      · simp only [dictGet, if_neg hn]
        exact ih
    · have e1 : (if (k1 == Func.name f) = true then (k1, f) else (k1, v1)) = (k1, v1) :=
        if_neg (by simp [hf])
      rw [e1]
      by_cases hn : k1 = n
      · subst hn
        simp only [dictGet, if_pos rfl]
        simp [hf]
      · simp only [dictGet, if_neg hn]
        exact ih

theorem dictGet_dictInsert (m : List (String × Func)) (f : Func) (n : String) :
    dictGet (dictInsert m f) n = if Func.name f = n then some f else dictGet m n := by
  unfold dictInsert
  by_cases hk : dictHasKey m (Func.name f)
  · rw [if_pos hk, dictGet_replace]
    by_cases hn : n = Func.name f
    · subst hn
      obtain ⟨v, hv⟩ := dictHasKey_true_get m (Func.name f) hk
      simp [hv]
    · simp [hn, Ne.symm hn]
  · rw [if_neg hk, dictGet_append]
    have hnone : dictGet m (Func.name f) = none := dictHasKey_false_get m _ (by simpa using hk)
    by_cases hn : Func.name f = n
    · subst hn
      rw [hnone]
      simp [dictGet]
    · cases hg : dictGet m n with
      | some v => simp [hg, hn]
      | none => simp [hg, dictGet, hn]

theorem seedMap_get_aux (fs : List Func) (n : String) : ∀ acc : List (String × Func),
    dictGet (fs.foldl dictInsert acc) n =
      fs.foldl (fun a f => if Func.name f == n then some f else a) (dictGet acc n) := by
  induction fs with
  | nil => intro acc; rfl
  | cons f rest ih =>
    intro acc
    rw [List.foldl_cons, List.foldl_cons, ih, dictGet_dictInsert]
    by_cases hn : Func.name f = n
    · rw [if_pos hn, if_pos (by simp [hn])]
    · rw [if_neg hn, if_neg (by simp [hn])]

/-- The dict comprehension keyed on names keeps, for each name, the last
function of that name. -/
theorem seedMap_get (fs : List Func) (n : String) :
    dictGet (seedMap fs) n = lastNamed n fs :=
  seedMap_get_aux fs n []

theorem dictHasKey_false_not_mem (m : List (String × Func)) (k : String)
    (h : dictHasKey m k = false) : k ∉ m.map Prod.fst := by
  induction m with
  | nil => simp
  | cons p rest ih =>
    obtain ⟨k1, v1⟩ := p
    simp only [dictHasKey, List.any_cons, Bool.or_eq_false_iff, beq_eq_false_iff_ne] at h
    simp only [List.map_cons, List.mem_cons]
    rintro (hk | hk)
    · exact h.1 hk.symm
    · exact ih (by simpa [dictHasKey] using h.2) hk

theorem dictInsert_keys_nodup (m : List (String × Func)) (f : Func)
    (h : (m.map Prod.fst).Nodup) : ((dictInsert m f).map Prod.fst).Nodup := by
  unfold dictInsert
  by_cases hk : dictHasKey m (Func.name f)
  · rw [if_pos hk]
    have e : (m.map (fun p => if p.1 == Func.name f then (p.1, f) else p)).map Prod.fst =
        m.map Prod.fst := by
      rw [List.map_map]
      apply List.map_congr_left
      intro p _
      by_cases hp : p.1 = Func.name f
      · simp [hp]
      · simp [hp]
    rw [e]
    exact h
  · rw [if_neg hk, List.map_append]
    rw [List.nodup_append]
    refine ⟨h, List.nodup_singleton _, ?_⟩
    intro a ha hb
    simp only [List.map_cons, List.map_nil, List.mem_singleton] at hb
    subst hb
    exact dictHasKey_false_not_mem m (Func.name f) (by simpa using hk) ha

theorem seedMap_keys_nodup_aux (fs : List Func) : ∀ acc : List (String × Func),
    (acc.map Prod.fst).Nodup → ((fs.foldl dictInsert acc).map Prod.fst).Nodup := by
  induction fs with
  | nil => intro acc h; exact h
  | cons f rest ih =>
    intro acc h
    rw [List.foldl_cons]
    exact ih (dictInsert acc f) (dictInsert_keys_nodup acc f h)

/-- C9: when the root program has a non-empty imports field and two
functions of the same name, no `DuplicateFunctionError` is raised for that
duplicate.  Seeding `merged` through the name-keyed dict comprehension
keeps exactly one function per name — the last one — and a concrete run
with an import shows the resolution succeeding with the later `a`
replacing the earlier one. -/
theorem c9_root_level_duplicates_replaced :
    (∀ (fs : List Func) (n : String), dictGet (seedMap fs) n = lastNamed n fs) ∧
    (∀ fs : List Func, ((seedMap fs).map Prod.fst).Nodup) ∧
    unroll_imports [("B", "h \x7b q: int = const 1; \x7d")] 5
      (Program.mk (some ["B"]) [Func.mk "a" [] none [Instr.eop "one" []],
                                Func.mk "a" [] none [Instr.eop "two" []]]) =
      some (["B"], Except.ok (Program.mk none
        [Func.mk "a" [] none [Instr.eop "two" []],
         Func.mk "h" [] none [Instr.const "q" "int" (Lit.int 1)]])) :=
  ⟨seedMap_get, fun fs => seedMap_keys_nodup_aux fs [] (by simp), rfl⟩

/-! ## Cross-module duplicate detection in the resolver (C5) -/

theorem mem_dedupFirst_aux (l : List String) (x : String) : ∀ acc : List String,
    (x ∈ l.foldl (fun acc y => if y ∈ acc then acc else acc ++ [y]) acc ↔ x ∈ acc ∨ x ∈ l) := by
  induction l with
  | nil => intro acc; simp
  | cons y l' ih =>
    intro acc
    rw [List.foldl_cons, ih]
    by_cases hy : y ∈ acc
    · rw [if_pos hy]
      constructor
      · rintro (h | h)
        · exact Or.inl h
        · exact Or.inr (List.mem_cons_of_mem y h)
      · rintro (h | h)
        · exact Or.inl h
        · rcases List.mem_cons.mp h with h | h
          · exact Or.inl (h ▸ hy)
          · exact Or.inr h
    · rw [if_neg hy]
      simp only [List.mem_append, List.mem_singleton, List.mem_cons]
      tauto

theorem mem_dedupFirst (l : List String) (x : String) : x ∈ dedupFirst l ↔ x ∈ l := by
  unfold dedupFirst
  rw [mem_dedupFirst_aux]
  simp

theorem nodup_append_singleton {l : List String} {a : String}
    (ha : a ∉ l) (hl : l.Nodup) : (l ++ [a]).Nodup := by
  rw [List.nodup_append]
  refine ⟨hl, List.nodup_singleton _, ?_⟩
  intro x hx hx1
  rw [List.mem_singleton] at hx1
  exact ha (hx1 ▸ hx)

theorem dedupFirst_nodup_aux (l : List String) : ∀ acc : List String,
    acc.Nodup → (l.foldl (fun acc y => if y ∈ acc then acc else acc ++ [y]) acc).Nodup := by
  induction l with
  | nil => intro acc h; exact h
  | cons y l' ih =>
    intro acc h
    rw [List.foldl_cons]
    by_cases hy : y ∈ acc
    · rw [if_pos hy]; exact ih acc h
    · rw [if_neg hy]; exact ih _ (nodup_append_singleton hy h)

theorem dedupFirst_nodup (l : List String) : (dedupFirst l).Nodup :=
  dedupFirst_nodup_aux l [] List.nodup_nil

theorem mem_collisions (merged : List (String × Func)) (fs : List Func) (n : String) :
    n ∈ collisions merged fs ↔ (n ∈ fs.map Func.name ∧ dictHasKey merged n = true) := by
  unfold collisions
  rw [mem_dedupFirst, List.mem_filter]

/-- C5: when the module at the head of the pending set loads and parses,
and the set of its function names colliding with the accumulated map is
non-empty, the loop step fails with `DuplicateFunctionError` over exactly
that collision set — which contains a name iff it is both defined by the
loaded module and already a key of the accumulated map — and no merge
happens. -/
theorem c5_cross_module_duplicate_error
    (env : List (String × String)) (fuel : Nat) (m : String)
    (rest imported : List String) (merged : List (String × Func))
    (txt : String) (loaded : Program)
    (hload : lookupStr env m = some txt)
    (hparse : parse_bril txt = Except.ok loaded)
    (hcol : collisions merged loaded.functions ≠ []) :
    unrollLoop env (fuel + 1) (m :: rest) imported merged =
      some (m :: imported,
        Except.error (BrilErr.duplicateFunctions (collisions merged loaded.functions))) ∧
    ∀ n, n ∈ collisions merged loaded.functions ↔
      (n ∈ loaded.functions.map Func.name ∧ dictHasKey merged n = true) := by
  constructor
  · show unrollLoop env (fuel + 1) (m :: rest) imported merged = _
    rw [unrollLoop, hload]
    dsimp only
    rw [hparse]
    dsimp only
    cases hds : collisions merged loaded.functions with
    | nil => exact absurd hds hcol
    | cons d ds => rfl
  · intro n
    exact mem_collisions merged loaded.functions n

/-- Witness for `c5_cross_module_duplicate_error`: program A's `helper`
collides with module B's `helper`. -/
theorem c5_witness :
    unrollLoop [("B", "helper \x7b h: int = const 1; \x7d")] 1 ["B"] []
      (seedMap [Func.mk "helper" [] none [Instr.eop "nop" []]]) =
    some (["B"], Except.error (BrilErr.duplicateFunctions ["helper"])) :=
  (c5_cross_module_duplicate_error [("B", "helper \x7b h: int = const 1; \x7d")] 0 "B" [] []
    (seedMap [Func.mk "helper" [] none [Instr.eop "nop" []]])
    "helper \x7b h: int = const 1; \x7d"
    (Program.mk none [Func.mk "helper" [] none [Instr.const "h" "int" (Lit.int 1)]])
    rfl rfl (by decide)).1

/-! ## Termination of the import loop, each module loaded once (C8) -/

theorem lookupStr_mem (env : List (String × String)) (m txt : String)
    (h : lookupStr env m = some txt) : (m, txt) ∈ env := by
  induction env with
  | nil => exact absurd h (by simp [lookupStr])
  | cons p rest ih =>
    obtain ⟨k, v⟩ := p
    by_cases hk : k = m
    · subst hk
      rw [lookupStr, if_pos rfl] at h
      simp only [Option.some_inj] at h
      subst h
      exact List.mem_cons_self _ _
    · rw [lookupStr, if_neg hk] at h
      exact List.mem_cons_of_mem _ (ih h)

theorem mem_addNew (xs : List String) : ∀ (pd imported : List String) (y : String),
    y ∈ addNew pd imported xs → y ∈ pd ∨ (y ∈ xs ∧ y ∉ imported) := by
  induction xs with
  | nil => intro pd imported y h; exact Or.inl h
  | cons x xs' ih =>
    intro pd imported y h
    rw [addNew, List.foldl_cons] at h
    rcases ih _ imported y h with h1 | h1
    · by_cases hx : x ∈ pd ∨ x ∈ imported
      · rw [if_pos hx] at h1
        exact Or.inl h1
      · rw [if_neg hx] at h1
        rcases List.mem_append.mp h1 with h2 | h2
        · exact Or.inl h2
        · rw [List.mem_singleton] at h2
          subst h2
          exact Or.inr ⟨List.mem_cons_self _ _, fun hc => hx (Or.inr hc)⟩
    · exact Or.inr ⟨List.mem_cons_of_mem x h1.1, h1.2⟩

theorem addNew_nodup (xs : List String) : ∀ (pd imported : List String),
    pd.Nodup → (addNew pd imported xs).Nodup := by
  induction xs with
  | nil => intro pd imported h; exact h
  | cons x xs' ih =>
    intro pd imported h
    rw [addNew, List.foldl_cons]
    by_cases hx : x ∈ pd ∨ x ∈ imported
    · rw [if_pos hx]
      exact ih pd imported h
    · rw [if_neg hx]
      exact ih _ imported (nodup_append_singleton (fun hc => hx (Or.inl hc)) h)

theorem unrollLoop_total (env : List (String × String)) (U : List String)
    (henv : ∀ m txt, lookupStr env m = some txt →
      ∀ x, x ∈ importsOfText txt → x ∈ U) :
    ∀ (fuel : Nat) (pending imported : List String) (merged : List (String × Func)),
    (∀ x ∈ pending, x ∈ U) →
    (∀ x ∈ pending, x ∉ imported) →
    pending.Nodup → imported.Nodup →
    (U.toFinset \ imported.toFinset).card < fuel →
    ∃ r, unrollLoop env fuel pending imported merged = some r ∧ r.1.Nodup := by
  intro fuel
  induction fuel with
  | zero =>
    intro pending imported merged _ _ _ _ hcard
    exact absurd hcard (Nat.not_lt_zero _)
  | succ f ih =>
    intro pending imported merged hU hdis hpn hin hcard
    cases pending with
    | nil => exact ⟨(imported, Except.ok merged), by simp [unrollLoop], hin⟩
    | cons m rest =>
      have hmU : m ∈ U := hU m (List.mem_cons_self m rest)
      have hmni : m ∉ imported := hdis m (List.mem_cons_self m rest)
      have hin' : (m :: imported).Nodup := List.nodup_cons.mpr ⟨hmni, hin⟩
      have hm : m ∈ U.toFinset \ imported.toFinset := by
        rw [Finset.mem_sdiff]
        exact ⟨List.mem_toFinset.mpr hmU, fun hc => hmni (List.mem_toFinset.mp hc)⟩
      have hcard' : (U.toFinset \ (m :: imported).toFinset).card < f := by
        rw [List.toFinset_cons, Finset.sdiff_insert, Finset.card_erase_of_mem hm]
        have hpos : 0 < (U.toFinset \ imported.toFinset).card :=
          Finset.card_pos.mpr ⟨m, hm⟩
        omega
      cases hlk : lookupStr env m with
      | none =>
        exact ⟨(m :: imported, Except.error (BrilErr.moduleLoadError m)),
          by rw [unrollLoop, hlk], hin'⟩
      | some txt =>
        cases hp : parse_bril txt with
        | error e =>
          exact ⟨(m :: imported, Except.error e),
            by rw [unrollLoop, hlk]; dsimp only; rw [hp], hin'⟩
        | ok loaded =>
          cases hds : collisions merged loaded.functions with
          | cons d ds =>
            exact ⟨(m :: imported, Except.error (BrilErr.duplicateFunctions (d :: ds))),
              by rw [unrollLoop, hlk]; dsimp only; rw [hp]; dsimp only; rw [hds], hin'⟩
          | nil =>
            have himp : importsOfText txt = loaded.imports.getD [] := by
              unfold importsOfText
              rw [hp]
            have hrest_sub : ∀ x ∈ rest, x ∈ U :=
              fun x hx => hU x (List.mem_cons_of_mem m hx)
            have hmrest : m ∉ rest := (List.nodup_cons.mp hpn).1
            have hrestn : rest.Nodup := (List.nodup_cons.mp hpn).2
            have hU' : ∀ x ∈ addNew rest (m :: imported)
                (dedupFirst (loaded.imports.getD [])), x ∈ U := by
              intro x hx
              rcases mem_addNew _ rest (m :: imported) x hx with h1 | h1
              · exact hrest_sub x h1
              · have hxl : x ∈ importsOfText txt := by
                  rw [himp]
                  exact (mem_dedupFirst _ x).mp h1.1
                exact henv m txt hlk x hxl
            have hdis' : ∀ x ∈ addNew rest (m :: imported)
                (dedupFirst (loaded.imports.getD [])), x ∉ (m :: imported) := by
              intro x hx
              rcases mem_addNew _ rest (m :: imported) x hx with h1 | h1
              · intro hc
                rcases List.mem_cons.mp hc with hc | hc
                · exact hmrest (hc ▸ h1)
                · exact hdis x (List.mem_cons_of_mem m h1) hc
              · exact h1.2
            have hpn' : (addNew rest (m :: imported)
                (dedupFirst (loaded.imports.getD []))).Nodup :=
              addNew_nodup _ rest (m :: imported) hrestn
            obtain ⟨r, hr, hrn⟩ := ih (addNew rest (m :: imported)
                (dedupFirst (loaded.imports.getD []))) (m :: imported)
                (loaded.functions.foldl dictInsert merged) hU' hdis' hpn' hin' hcard'
            refine ⟨r, ?_, hrn⟩
            rw [unrollLoop, hlk]
            dsimp only
            rw [hp]
            dsimp only
            rw [hds]
            exact hr

/-- C8: with fuel one more than the number of module names that can ever
become pending (the program's imports plus every module's imports), the
resolver's loop terminates and returns, and the list of modules it actually
loaded contains no repeats — the `imported` set guard loads and merges each
transitively imported module at most once. -/
theorem c8_unroll_terminates_each_module_once (env : List (String × String)) (prog : Program) :
    ∃ r : List String × Except BrilErr Program,
      unroll_imports env (unrollBound env prog) prog = some r ∧ r.1.Nodup := by
  unfold unroll_imports
  cases him : prog.imports with
  | none => exact ⟨([], Except.ok prog), rfl, List.nodup_nil⟩
  | some imps =>
    have henv : ∀ m txt, lookupStr env m = some txt →
        ∀ x, x ∈ importsOfText txt → x ∈ moduleUniverse env prog := by
      intro m txt hlk x hx
      unfold moduleUniverse
      rw [mem_dedupFirst]
      refine List.mem_append.mpr (Or.inr ?_)
      rw [List.mem_flatten]
      exact ⟨importsOfText txt,
        List.mem_map.mpr ⟨(m, txt), lookupStr_mem env m txt hlk, rfl⟩, hx⟩
    have hU0 : ∀ x ∈ dedupFirst imps, x ∈ moduleUniverse env prog := by
      intro x hx
      unfold moduleUniverse
      rw [mem_dedupFirst]
      refine List.mem_append.mpr (Or.inl ?_)
      rw [him]
      exact (mem_dedupFirst imps x).mp hx
    have hcard0 : ((moduleUniverse env prog).toFinset \
        ([] : List String).toFinset).card < unrollBound env prog := by
      simp only [List.toFinset_nil, Finset.sdiff_empty]
      exact Nat.lt_succ_of_le (moduleUniverse env prog).toFinset_card_le
    obtain ⟨r, hr, hrn⟩ := unrollLoop_total env (moduleUniverse env prog) henv
      (unrollBound env prog) (dedupFirst imps) [] (seedMap prog.functions)
      hU0 (fun x _ => List.not_mem_nil x) (dedupFirst_nodup imps) List.nodup_nil hcard0
    obtain ⟨imp, res⟩ := r
    cases res with
    | error e =>
      exact ⟨(imp, Except.error e), by dsimp only; rw [hr], hrn⟩
    | ok merged =>
      exact ⟨(imp, Except.ok (Program.mk none (merged.map Prod.snd))),
        by dsimp only; rw [hr], hrn⟩

/-! ## Decimal printing inverts decimal parsing -/

theorem digitChar_isDigit (n : Nat) : (digitChar n).isDigit = true := by
  unfold digitChar
  split <;> decide

theorem digitVal_digitChar (n : Nat) (h : n < 10) : digitVal (digitChar n) = n := by
  interval_cases n <;> decide

theorem digitsToNat_append_one (ds : List Char) (c : Char) :
    digitsToNat (ds ++ [c]) = 10 * digitsToNat ds + digitVal c := by
  unfold digitsToNat
  rw [List.foldl_append]
  rfl

theorem natDigitsF_spec (fuel : Nat) : ∀ n : Nat, n < fuel →
    digitsToNat (natDigitsF fuel n) = n ∧ (natDigitsF fuel n).all Char.isDigit = true ∧
    natDigitsF fuel n ≠ [] := by
  induction fuel with
  | zero => intro n h; exact absurd h (Nat.not_lt_zero n)
  | succ f ih =>
    intro n h
    rw [natDigitsF]
    by_cases h10 : n < 10
    · rw [if_pos h10]
      refine ⟨?_, ?_, by simp⟩
      · show digitsToNat [digitChar n] = n
        unfold digitsToNat
        simp [digitVal_digitChar n h10]
      · simp [digitChar_isDigit]
    · rw [if_neg h10]
      have hd : n / 10 < n := Nat.div_lt_self (by omega) (by omega)
      have hf : n / 10 < f := by omega
      obtain ⟨ih1, ih2, ih3⟩ := ih (n / 10) hf
      refine ⟨?_, ?_, by simp⟩
      · rw [digitsToNat_append_one, ih1, digitVal_digitChar _ (Nat.mod_lt n (by omega))]
        exact Nat.div_add_mod n 10
      · rw [List.all_append, ih2]
        simp [digitChar_isDigit]

theorem natDigits_spec (n : Nat) :
    digitsToNat (natDigits n) = n ∧ (natDigits n).all Char.isDigit = true ∧
    natDigits n ≠ [] :=
  natDigitsF_spec (n + 1) n (Nat.lt_succ_self n)

theorem natDigits_head_digit (n : Nat) :
    ∃ d w, natDigits n = d :: w ∧ d.isDigit = true ∧ w.all Char.isDigit = true := by
  obtain ⟨-, hall, hne⟩ := natDigits_spec n
  cases hnd : natDigits n with
  | nil => exact absurd hnd hne
  | cons d w =>
    rw [hnd] at hall
    rw [List.all_cons, Bool.and_eq_true] at hall
    exact ⟨d, w, rfl, hall.1, hall.2⟩

/-- The characters of Python's `str` of an integer. -/
theorem intStr_data (i : Int) :
    (i < 0 → (intStr i).data = '-' :: natDigits i.natAbs) ∧
    (0 ≤ i → (intStr i).data = natDigits i.natAbs) := by
  constructor
  · intro h
    unfold intStr
    rw [if_pos h]
  · intro h
    unfold intStr
    rw [if_neg (by omega)]

theorem strToInt_intStr (i : Int) : strToInt (intStr i) = i := by
  by_cases hneg : i < 0
  · have hd : (intStr i).data = '-' :: natDigits i.natAbs := (intStr_data i).1 hneg
    unfold strToInt
    rw [hd]
    dsimp only
    rw [if_pos rfl, (natDigits_spec i.natAbs).1]
    omega
  · have hd : (intStr i).data = natDigits i.natAbs := (intStr_data i).2 (by omega)
    obtain ⟨d, w, hnd, hdig, -⟩ := natDigits_head_digit i.natAbs
    have hno1 : d ≠ '-' := by
      intro hc
      rw [hc] at hdig
      exact absurd hdig (by decide)
    have hno2 : d ≠ '+' := by
      intro hc
      rw [hc] at hdig
      exact absurd hdig (by decide)
    have hval : digitsToNat (d :: w) = i.natAbs := by
      rw [← hnd]
      exact (natDigits_spec i.natAbs).1
    unfold strToInt
    rw [hd, hnd]
    dsimp only
    rw [if_neg hno1, if_neg hno2, hval]
    omega

/-! ## The tokenizer on printed text -/

theorem identStart_props (c : Char) (h : isIdentStart c = true) :
    isWs c = false ∧ c ≠ '#' ∧ c ≠ ':' ∧ c ≠ ';' ∧ c ≠ '=' ∧ c ≠ '\x7b' ∧ c ≠ '\x7d' ∧
    c ≠ '(' ∧ c ≠ ')' := by
  simp only [isIdentStart, Bool.or_eq_true, decide_eq_true_eq] at h
  rcases h with (h | h) | h
  · subst h; decide
  · subst h; decide
  · have hws : isWs c = false := by
      by_contra hc
      rw [Bool.not_eq_false] at hc
      simp only [isWs, Bool.or_eq_true, decide_eq_true_eq] at hc
      rcases hc with ((h1 | h1) | h1) | h1 <;> (subst h1; exact absurd h (by decide))
    refine ⟨hws, ?_, ?_, ?_, ?_, ?_, ?_, ?_, ?_⟩ <;>
      (intro hc; subst hc; exact absurd h (by decide))

theorem digitList_props (c : Char)
    (h : c ∈ ['0', '1', '2', '3', '4', '5', '6', '7', '8', '9']) :
    c.isDigit = true ∧ isIdentStart c = false ∧ isWs c = false ∧ c ≠ '#' ∧ c ≠ ':' ∧
    c ≠ ';' ∧ c ≠ '=' ∧ c ≠ '\x7b' ∧ c ≠ '\x7d' ∧ c ≠ '(' ∧ c ≠ ')' := by
  fin_cases h <;> decide

theorem headNot_append (p : Char → Bool) (cs b : List Char) (h : headNot p cs) :
    headNot p (cs ++ b) := by
  cases cs with
  | nil => exact absurd h (by simp [headNot])
  | cons c cs' => exact h


/-- One unfolding step of the tokenizer on a cons cell; definitional. -/
theorem tokenizeF_succ_cons (fuel : Nat) (c : Char) (cs : List Char) :
    tokenizeF (fuel + 1) (c :: cs) =
      (if isWs c then tokenizeF fuel cs
      else if c = '#' then tokenizeF fuel (cs.dropWhile (fun d => d != '\n'))
      else if c = ':' then (tokenizeF fuel cs).map (fun ts => Tok.colon :: ts)
      else if c = ';' then (tokenizeF fuel cs).map (fun ts => Tok.semi :: ts)
      else if c = '=' then (tokenizeF fuel cs).map (fun ts => Tok.assign :: ts)
      else if c = '\x7b' then (tokenizeF fuel cs).map (fun ts => Tok.lbrace :: ts)
      else if c = '\x7d' then (tokenizeF fuel cs).map (fun ts => Tok.rbrace :: ts)
      else if c = '(' then (tokenizeF fuel cs).map (fun ts => Tok.lparen :: ts)
      else if c = ')' then (tokenizeF fuel cs).map (fun ts => Tok.rparen :: ts)
      else if isIdentStart c then
        match munch isIdentChar cs with
        | (w, rest) => (tokenizeF fuel rest).map (fun ts => Tok.word (String.mk (c :: w)) :: ts)
      else if c.isDigit then
        match munch Char.isDigit cs with
        | (w, rest) => (tokenizeF fuel rest).map (fun ts => Tok.num (String.mk (c :: w)) :: ts)
      else if c = '-' || c = '+' then
        match cs with
        | [] => none
        | d :: cs2 =>
          if d.isDigit then
            match munch Char.isDigit cs2 with
            | (w, rest) =>
              (tokenizeF fuel rest).map (fun ts => Tok.num (String.mk (c :: d :: w)) :: ts)
          else none
      else none) := rfl

theorem munch_exact (p : Char → Bool) (w : List Char) (hw : w.all p = true) :
    ∀ r : List Char, headNot p r → munch p (w ++ r) = (w, r) := by
  induction w with
  | nil =>
    intro r hr
    cases r with
    | nil => exact absurd hr (by simp [headNot])
    | cons c r' =>
      have hc : p c = false := hr
      show munch p (c :: r') = ([], c :: r')
      rw [munch, if_neg (by simp [hc])]
  | cons c w' ih =>
    intro r hr
    rw [List.all_cons, Bool.and_eq_true] at hw
    show munch p (c :: (w' ++ r)) = (c :: w', r)
    rw [munch, if_pos hw.1, ih hw.2 r hr]

theorem chunk_steps_le {a : List Char} {ta : List Tok} {k : Nat} (h : Chunk a ta k) :
    k ≤ a.length := by
  induction h with
  | nil => exact Nat.le_refl 0
  | ws _ _ ih => simpa using Nat.succ_le_succ ih
  | colon _ ih => simpa using Nat.succ_le_succ ih
  | semi _ ih => simpa using Nat.succ_le_succ ih
  | assign _ ih => simpa using Nat.succ_le_succ ih
  | lbrace _ ih => simpa using Nat.succ_le_succ ih
  | rbrace _ ih => simpa using Nat.succ_le_succ ih
  | word _ _ _ _ ih => simp; omega
  | numP _ _ _ _ ih => simp; omega
  | numN _ _ _ _ ih => simp; omega

theorem chunk_tokenizeF {a : List Char} {ta : List Tok} {k : Nat} (hc : Chunk a ta k) :
    ∀ (fuel : Nat) (b : List Char) (tb : List Tok), tokenizeF fuel b = some tb →
      tokenizeF (k + fuel) (a ++ b) = some (ta ++ tb) := by
  induction hc with
  | nil => intro fuel b tb hb; simpa using hb
  | @ws c cs ts k h _ ih =>
    intro fuel b tb hb
    rw [Nat.add_right_comm k 1 fuel, List.cons_append, tokenizeF_succ_cons, if_pos h]
    exact ih fuel b tb hb
  | @colon cs ts k _ ih =>
    intro fuel b tb hb
    rw [Nat.add_right_comm k 1 fuel]
    have e : tokenizeF ((k + fuel) + 1) (':' :: (cs ++ b)) =
        (tokenizeF (k + fuel) (cs ++ b)).map (fun l => Tok.colon :: l) := rfl
    rw [List.cons_append, e, ih fuel b tb hb]
    rfl
  | @semi cs ts k _ ih =>
    intro fuel b tb hb
    rw [Nat.add_right_comm k 1 fuel]
    have e : tokenizeF ((k + fuel) + 1) (';' :: (cs ++ b)) =
        (tokenizeF (k + fuel) (cs ++ b)).map (fun l => Tok.semi :: l) := rfl
    rw [List.cons_append, e, ih fuel b tb hb]
    rfl
  | @assign cs ts k _ ih =>
    intro fuel b tb hb
    rw [Nat.add_right_comm k 1 fuel]
    have e : tokenizeF ((k + fuel) + 1) ('=' :: (cs ++ b)) =
        (tokenizeF (k + fuel) (cs ++ b)).map (fun l => Tok.assign :: l) := rfl
    rw [List.cons_append, e, ih fuel b tb hb]
    rfl
  | @lbrace cs ts k _ ih =>
    intro fuel b tb hb
    rw [Nat.add_right_comm k 1 fuel]
    have e : tokenizeF ((k + fuel) + 1) ('\x7b' :: (cs ++ b)) =
        (tokenizeF (k + fuel) (cs ++ b)).map (fun l => Tok.lbrace :: l) := rfl
    rw [List.cons_append, e, ih fuel b tb hb]
    rfl
  | @rbrace cs ts k _ ih =>
    intro fuel b tb hb
    rw [Nat.add_right_comm k 1 fuel]
    have e : tokenizeF ((k + fuel) + 1) ('\x7d' :: (cs ++ b)) =
        (tokenizeF (k + fuel) (cs ++ b)).map (fun l => Tok.rbrace :: l) := rfl
    rw [List.cons_append, e, ih fuel b tb hb]
    rfl
  | @word c w cs ts k hst hall hhead _ ih =>
    intro fuel b tb hb
    obtain ⟨hws, hh, hco, hse, heq, hlb, hrb, hlp, hrp⟩ := identStart_props c hst
    rw [Nat.add_right_comm k 1 fuel, List.cons_append, List.append_assoc,
      tokenizeF_succ_cons]
    rw [if_neg (by simp [hws]), if_neg (by simp [hh]), if_neg (by simp [hco]),
      if_neg (by simp [hse]), if_neg (by simp [heq]), if_neg (by simp [hlb]),
      if_neg (by simp [hrb]), if_neg (by simp [hlp]), if_neg (by simp [hrp]),
      if_pos hst]
    rw [munch_exact isIdentChar w hall (cs ++ b) (headNot_append _ cs b hhead)]
    dsimp only
    rw [ih fuel b tb hb]
    rfl
  | @numP d w cs ts k hd hall hhead _ ih =>
    intro fuel b tb hb
    obtain ⟨hdig, hist, hws, hh, hco, hse, heq, hlb, hrb, hlp, hrp⟩ := digitList_props d hd
    rw [Nat.add_right_comm k 1 fuel, List.cons_append, List.append_assoc,
      tokenizeF_succ_cons]
    rw [if_neg (by simp [hws]), if_neg (by simp [hh]), if_neg (by simp [hco]),
      if_neg (by simp [hse]), if_neg (by simp [heq]), if_neg (by simp [hlb]),
      if_neg (by simp [hrb]), if_neg (by simp [hlp]), if_neg (by simp [hrp]),
      if_neg (by simp [hist]), if_pos hdig]
    rw [munch_exact Char.isDigit w hall (cs ++ b) (headNot_append _ cs b hhead)]
    dsimp only
    rw [ih fuel b tb hb]
    rfl
  | @numN d w cs ts k hd hall hhead _ ih =>
    intro fuel b tb hb
    have hdig : d.isDigit = true := (digitList_props d hd).1
    rw [Nat.add_right_comm k 1 fuel, List.cons_append, List.cons_append,
      List.append_assoc]
    have e : tokenizeF ((k + fuel) + 1) ('-' :: d :: (w ++ (cs ++ b))) =
        if d.isDigit = true then
          (match munch Char.isDigit (w ++ (cs ++ b)) with
           | (w', rest) =>
             (tokenizeF (k + fuel) rest).map
               (fun l => Tok.num (String.mk ('-' :: d :: w')) :: l))
        else none := rfl
    rw [e, if_pos hdig]
    rw [munch_exact Char.isDigit w hall (cs ++ b) (headNot_append _ cs b hhead)]
    dsimp only
    rw [ih fuel b tb hb]
    rfl

/-- Chunks concatenate: every word/number chunk already carries its
stopping character, so the boundary conditions survive appending. -/
theorem chunk_append {a ta i} (ha : Chunk a ta i) :
    ∀ {b tb j}, Chunk b tb j → Chunk (a ++ b) (ta ++ tb) (i + j) := by
  induction ha with
  | nil => intro b tb j hb; simpa using hb
  | @ws c cs ts k h _ ih =>
    intro b tb j hb
    rw [List.cons_append, Nat.add_right_comm k 1 j]
    exact Chunk.ws h (ih hb)
  | @colon cs ts k _ ih =>
    intro b tb j hb
    rw [List.cons_append, List.cons_append, Nat.add_right_comm k 1 j]
    exact Chunk.colon (ih hb)
  | @semi cs ts k _ ih =>
    intro b tb j hb
    rw [List.cons_append, List.cons_append, Nat.add_right_comm k 1 j]
    exact Chunk.semi (ih hb)
  | @assign cs ts k _ ih =>
    intro b tb j hb
    rw [List.cons_append, List.cons_append, Nat.add_right_comm k 1 j]
    exact Chunk.assign (ih hb)
  | @lbrace cs ts k _ ih =>
    intro b tb j hb
    rw [List.cons_append, List.cons_append, Nat.add_right_comm k 1 j]
    exact Chunk.lbrace (ih hb)
  | @rbrace cs ts k _ ih =>
    intro b tb j hb
    rw [List.cons_append, List.cons_append, Nat.add_right_comm k 1 j]
    exact Chunk.rbrace (ih hb)
  | @word c w cs ts k hst hall hhead hcs ih =>
    intro b tb j hb
    rw [List.cons_append, List.append_assoc, List.cons_append,
      Nat.add_right_comm k 1 j]
    exact Chunk.word hst hall (headNot_append _ cs b hhead) (ih hb)
  | @numP d w cs ts k hd hall hhead hcs ih =>
    intro b tb j hb
    rw [List.cons_append, List.append_assoc, List.cons_append,
      Nat.add_right_comm k 1 j]
    exact Chunk.numP hd hall (headNot_append _ cs b hhead) (ih hb)
  | @numN d w cs ts k hd hall hhead hcs ih =>
    intro b tb j hb
    rw [List.cons_append, List.cons_append, List.append_assoc, List.cons_append,
      Nat.add_right_comm k 1 j]
    exact Chunk.numN hd hall (headNot_append _ cs b hhead) (ih hb)

/-- A full chunk tokenizes with the standard fuel. -/
theorem tokenize_of_chunk {a : List Char} {ta : List Tok} {k : Nat} (h : Chunk a ta k) :
    tokenize a = some ta := by
  have hk : k ≤ a.length := chunk_steps_le h
  have hz : tokenizeF (a.length + 1 - k) [] = some [] := by
    rw [show a.length + 1 - k = (a.length - k) + 1 from by omega]
    rfl
  have h2 := chunk_tokenizeF h (a.length + 1 - k) [] [] hz
  rw [List.append_nil, List.append_nil] at h2
  rw [show k + (a.length + 1 - k) = a.length + 1 from by omega] at h2
  exact h2

/-! ## Chunks for the printed text -/

theorem string_mk_data (s : String) : String.mk s.data = s := rfl

theorem isCNAME_isIDENT (s : String) (h : isCNAME s = true) : isIDENT s = true := by
  unfold isCNAME at h
  unfold isIDENT
  cases hd : s.data with
  | nil => rw [hd] at h; exact absurd h (by simp)
  | cons c cs =>
    rw [hd] at h
    rw [Bool.and_eq_true] at h
    have h1 : isIdentStart c = true := by
      simp only [isCnameStart, Bool.or_eq_true, decide_eq_true_eq] at h
      simp only [isIdentStart, Bool.or_eq_true, decide_eq_true_eq]
      tauto
    have h2 : cs.all isIdentChar = true := by
      rw [List.all_eq_true] at *
      intro x hx
      have h3 := h.2 x hx
      simp only [isCnameChar, isCnameStart, Bool.or_eq_true, decide_eq_true_eq] at h3
      simp only [isIdentChar, isIdentStart, Bool.or_eq_true, decide_eq_true_eq]
      tauto
    rw [Bool.and_eq_true]
    exact ⟨h1, h2⟩

theorem chunk_word_str (s : String) (h : isIDENT s = true) {cs : List Char}
    {ts : List Tok} {k : Nat} (hb : headNot isIdentChar cs) (hc : Chunk cs ts k) :
    Chunk (s.data ++ cs) (Tok.word s :: ts) (k + 1) := by
  unfold isIDENT at h
  cases hd : s.data with
  | nil => rw [hd] at h; exact absurd h (by simp)
  | cons c w =>
    rw [hd] at h
    rw [Bool.and_eq_true] at h
    have h2 := Chunk.word h.1 h.2 hb hc
    rw [show String.mk (c :: w) = s from by rw [← hd]] at h2
    rw [List.cons_append] at *
    exact h2

theorem digitChar_mem (n : Nat) :
    digitChar n ∈ ['0', '1', '2', '3', '4', '5', '6', '7', '8', '9'] := by
  unfold digitChar
  split <;> decide

theorem natDigitsF_mem (fuel : Nat) : ∀ (n : Nat) (c : Char), c ∈ natDigitsF fuel n →
    c ∈ ['0', '1', '2', '3', '4', '5', '6', '7', '8', '9'] := by
  induction fuel with
  | zero => intro n c hc; exact absurd hc (by simp [natDigitsF])
  | succ f ih =>
    intro n c hc
    rw [natDigitsF] at hc
    by_cases h10 : n < 10
    · rw [if_pos h10, List.mem_singleton] at hc
      exact hc ▸ digitChar_mem n
    · rw [if_neg h10, List.mem_append] at hc
      rcases hc with hc | hc
      · exact ih (n / 10) c hc
      · rw [List.mem_singleton] at hc
        exact hc ▸ digitChar_mem (n % 10)

theorem chunk_num (i : Int) {cs : List Char} {ts : List Tok} {k : Nat}
    (hb : headNot Char.isDigit cs) (hc : Chunk cs ts k) :
    Chunk ((intStr i).data ++ cs) (Tok.num (intStr i) :: ts) (k + 1) := by
  obtain ⟨d, w, hnd, -, hall⟩ := natDigits_head_digit i.natAbs
  have hmem : d ∈ ['0', '1', '2', '3', '4', '5', '6', '7', '8', '9'] :=
    natDigitsF_mem (i.natAbs + 1) i.natAbs d (by rw [← natDigits, hnd]; exact List.mem_cons_self d w)
  by_cases hneg : i < 0
  · have hd2 : (intStr i).data = '-' :: d :: w := by
      rw [(intStr_data i).1 hneg, hnd]
    have h2 := @Chunk.numN d w _ _ _ hmem hall hb hc
    rw [show String.mk ('-' :: d :: w) = intStr i from by rw [← hd2]] at h2
    rw [hd2]
    simpa using h2
  · have hd2 : (intStr i).data = d :: w := by
      rw [(intStr_data i).2 (by omega), hnd]
    have h2 := @Chunk.numP d w _ _ _ hmem hall hb hc
    rw [show String.mk (d :: w) = intStr i from by rw [← hd2]] at h2
    rw [hd2]
    simpa using h2

theorem chunk_lit (v : Lit) {cs : List Char} {ts : List Tok} {k : Nat}
    (hb1 : headNot isIdentChar cs) (hb2 : headNot Char.isDigit cs) (hc : Chunk cs ts k) :
    Chunk ((litStr v).data ++ cs) (litToks v ++ ts) (k + 1) := by
  cases v with
  | int i => exact chunk_num i hb2 hc
  | bool b =>
    cases b with
    | true => exact chunk_word_str "true" (by decide) hb1 hc
    | false => exact chunk_word_str "false" (by decide) hb1 hc

theorem chunk_args (args : List String) (hargs : args.all isIDENT = true)
    {cs : List Char} {ts : List Tok} {k : Nat} (hb : headNot isIdentChar cs)
    (hc : Chunk cs ts k) :
    ∃ k2, Chunk ((joinSp args).data ++ cs) (args.map Tok.word ++ ts) k2 := by
  induction args generalizing cs ts k with
  | nil => exact ⟨k, by simpa [joinSp] using hc⟩
  | cons a rest ih =>
    rw [List.all_cons, Bool.and_eq_true] at hargs
    cases rest with
    | nil =>
      refine ⟨k + 1, ?_⟩
      simpa [joinSp] using chunk_word_str a hargs.1 hb hc
    | cons b rest2 =>
      obtain ⟨k2, h2⟩ := ih hargs.2 hb hc
      have h3 : Chunk (' ' :: ((joinSp (b :: rest2)).data ++ cs))
          ((b :: rest2).map Tok.word ++ ts) (k2 + 1) := Chunk.ws (by decide) h2
      have h4 := chunk_word_str a hargs.1 (by
        show isIdentChar ' ' = false
        decide) h3
      refine ⟨k2 + 1 + 1, ?_⟩
      rw [show joinSp (a :: b :: rest2) = a ++ " " ++ joinSp (b :: rest2) from rfl]
      rw [show ((a ++ " " ++ joinSp (b :: rest2)).data ++ cs) =
        a.data ++ (' ' :: ((joinSp (b :: rest2)).data ++ cs)) from by
          simp [String.data_append]]
      simpa using h4

theorem headNot_cons (p : Char → Bool) (c : Char) (l : List Char) (h : p c = false) :
    headNot p (c :: l) := h

theorem data_two_sp : ("  " : String).data = [' ', ' '] := rfl

theorem data_colon_sp : (": " : String).data = [':', ' '] := rfl

theorem data_eq_const_sp : (" = const " : String).data =
    [' ', '=', ' ', 'c', 'o', 'n', 's', 't', ' '] := rfl

theorem data_eq_sp : (" = " : String).data = [' ', '=', ' '] := rfl

theorem data_sp : (" " : String).data = [' '] := rfl

theorem data_semi : (";" : String).data = [';'] := rfl

theorem data_colon1 : (":" : String).data = [':'] := rfl

theorem data_const_word : ("const" : String).data = ['c', 'o', 'n', 's', 't'] := rfl

theorem data_sp_lbrace : (" \x7b" : String).data = [' ', '\x7b'] := rfl

theorem data_rbrace : ("\x7d" : String).data = ['\x7d'] := rfl

theorem data_nl : ("\n" : String).data = ['\n'] := rfl

/-- For a valid, printable instruction, the printed line followed by a
newline tokenizes into the instruction's tokens. -/
theorem instrLine_chunk (i : Instr) (hv : validInstr i = true) (hp : printableInstr i = true)
    {cs : List Char} {ts : List Tok} {k : Nat} (hc : Chunk cs ts k) :
    ∃ s k2, instrLine i = some s ∧ Chunk (s.data ++ '\n' :: cs) (instrToks i ++ ts) k2 := by
  cases i with
  | nestedFunc g => exact absurd hp (by simp [printableInstr])
  | label l =>
    have hl : isIDENT l = true := by simpa [validInstr] using hv
    have c3 := chunk_word_str l hl (headNot_cons _ _ _ (by decide))
      (Chunk.colon (@Chunk.ws '\n' _ _ _ (by decide) hc))
    refine ⟨l ++ ":", k + 1 + 1 + 1, rfl, ?_⟩
    simpa only [instrToks, String.data_append, data_colon1, List.append_assoc,
      List.cons_append, List.nil_append] using c3
  | const d t v =>
    have hv2 : isIDENT d = true ∧ isCNAME t = true := by
      simpa [validInstr, Bool.and_eq_true] using hv
    have c1 := @Chunk.ws '\n' _ _ _ (by decide) hc
    have c2 := Chunk.semi c1
    have c3 := chunk_lit v (headNot_cons _ _ _ (by decide)) (headNot_cons _ _ _ (by decide)) c2
    have c4 := @Chunk.ws ' ' _ _ _ (by decide) c3
    have c5 := chunk_word_str "const" (by decide) (headNot_cons _ _ _ (by decide)) c4
    have c6 := @Chunk.ws ' ' _ _ _ (by decide) c5
    have c7 := Chunk.assign c6
    have c8 := @Chunk.ws ' ' _ _ _ (by decide) c7
    have c9 := chunk_word_str t (isCNAME_isIDENT t hv2.2) (headNot_cons _ _ _ (by decide)) c8
    have c10 := @Chunk.ws ' ' _ _ _ (by decide) c9
    have c11 := Chunk.colon c10
    have c12 := chunk_word_str d hv2.1 (headNot_cons _ _ _ (by decide)) c11
    have c13 := @Chunk.ws ' ' _ _ _ (by decide) c12
    have c14 := @Chunk.ws ' ' _ _ _ (by decide) c13
    refine ⟨"  " ++ (d ++ ": " ++ t ++ " = const " ++ litStr v) ++ ";",
      k + 1 + 1 + 1 + 1 + 1 + 1 + 1 + 1 + 1 + 1 + 1 + 1 + 1 + 1, rfl, ?_⟩
    simpa only [instrToks, String.data_append, data_two_sp, data_colon_sp,
      data_eq_const_sp, data_semi, data_const_word, List.append_assoc,
      List.cons_append, List.nil_append] using c14
  | vop d t op args =>
    have hv2 : ((isIDENT d = true ∧ isCNAME t = true) ∧ isCNAME op = true) ∧
        args.all isIDENT = true := by
      simpa [validInstr, Bool.and_eq_true] using hv
    have hop : ¬ op = "const" := by simpa [printableInstr] using hp
    have c1 := @Chunk.ws '\n' _ _ _ (by decide) hc
    have c2 := Chunk.semi c1
    obtain ⟨ka, c3⟩ := chunk_args args hv2.2 (headNot_cons _ _ _ (by decide)) c2
    have c4 := @Chunk.ws ' ' _ _ _ (by decide) c3
    have c5 := chunk_word_str op (isCNAME_isIDENT op hv2.1.2)
      (headNot_cons _ _ _ (by decide)) c4
    have c6 := @Chunk.ws ' ' _ _ _ (by decide) c5
    have c7 := Chunk.assign c6
    have c8 := @Chunk.ws ' ' _ _ _ (by decide) c7
    have c9 := chunk_word_str t (isCNAME_isIDENT t hv2.1.1.2)
      (headNot_cons _ _ _ (by decide)) c8
    have c10 := @Chunk.ws ' ' _ _ _ (by decide) c9
    have c11 := Chunk.colon c10
    have c12 := chunk_word_str d hv2.1.1.1 (headNot_cons _ _ _ (by decide)) c11
    have c13 := @Chunk.ws ' ' _ _ _ (by decide) c12
    have c14 := @Chunk.ws ' ' _ _ _ (by decide) c13
    refine ⟨"  " ++ (d ++ ": " ++ t ++ " = " ++ op ++ " " ++ joinSp args) ++ ";",
      ka + 1 + 1 + 1 + 1 + 1 + 1 + 1 + 1 + 1 + 1 + 1, ?_, ?_⟩
    · simp only [instrLine, print_instr, instr_to_string, if_neg hop, Option.map_some']
    · simpa only [instrToks, String.data_append, data_two_sp, data_colon_sp,
        data_eq_sp, data_sp, data_semi, List.append_assoc,
        List.cons_append, List.nil_append] using c14
  | eop op args =>
    have hv2 : isCNAME op = true ∧ args.all isIDENT = true := by
      simpa [validInstr, Bool.and_eq_true] using hv
    have hop : ¬ op = "const" := by simpa [printableInstr] using hp
    have c1 := @Chunk.ws '\n' _ _ _ (by decide) hc
    have c2 := Chunk.semi c1
    obtain ⟨ka, c3⟩ := chunk_args args hv2.2 (headNot_cons _ _ _ (by decide)) c2
    have c4 := @Chunk.ws ' ' _ _ _ (by decide) c3
    have c5 := chunk_word_str op (isCNAME_isIDENT op hv2.1)
      (headNot_cons _ _ _ (by decide)) c4
    have c6 := @Chunk.ws ' ' _ _ _ (by decide) c5
    have c7 := @Chunk.ws ' ' _ _ _ (by decide) c6
    refine ⟨"  " ++ (op ++ " " ++ joinSp args) ++ ";", ka + 1 + 1 + 1 + 1, ?_, ?_⟩
    · simp only [instrLine, print_instr, instr_to_string, if_neg hop, Option.map_some']
    · simpa only [instrToks, String.data_append, data_two_sp, data_sp, data_semi,
        List.append_assoc, List.cons_append, List.nil_append] using c7

theorem instrLines_chunk (is : List Instr) (hv : is.all validInstr = true)
    (hp : is.all printableInstr = true) :
    ∀ {cs : List Char} {ts : List Tok} {k : Nat}, Chunk cs ts k →
    ∃ lines k2, instrLines is = some lines ∧
      Chunk (((lines.map (fun l => l ++ "\n")).map String.data).flatten ++ cs)
        (bodyToks is ++ ts) k2 := by
  induction is with
  | nil =>
    intro cs ts k hc
    exact ⟨[], k, rfl, by simpa [bodyToks] using hc⟩
  | cons i rest ih =>
    intro cs ts k hc
    rw [List.all_cons, Bool.and_eq_true] at hv hp
    obtain ⟨lines', k', hl', hc'⟩ := ih hv.2 hp.2 hc
    obtain ⟨s, k2, hs, hcs⟩ := instrLine_chunk i hv.1 hp.1 hc'
    refine ⟨s :: lines', k2, ?_, ?_⟩
    · simp [instrLines, hs, hl']
    · have he : ((((s :: lines').map (fun l => l ++ "\n")).map String.data).flatten ++ cs) =
          s.data ++ '\n' :: ((((lines'.map (fun l => l ++ "\n")).map String.data).flatten) ++ cs) := by
        simp only [List.map_cons, List.flatten_cons, String.data_append, data_nl,
          List.append_assoc, List.cons_append, List.nil_append]
      rw [he]
      have ht : bodyToks (i :: rest) ++ ts = instrToks i ++ (bodyToks rest ++ ts) := by
        simp [bodyToks]
      rw [ht]
      exact hcs

theorem print_func_chunk (f : Func) (hv : validFunc f = true) (hp : printableFunc f = true)
    {cs : List Char} {ts : List Tok} {k : Nat} (hc : Chunk cs ts k) :
    ∃ lines k2, print_func f = some lines ∧
      Chunk (((lines.map (fun l => l ++ "\n")).map String.data).flatten ++ cs)
        (funcToks f ++ ts) k2 := by
  have hv2 : isCNAME (Func.name f) = true ∧ (Func.instrs f).all validInstr = true := by
    simpa [validFunc, Bool.and_eq_true] using hv
  have hpi : (Func.instrs f).all printableInstr = true := by
    simp only [printableFunc, Bool.and_eq_true] at hp
    exact hp.2
  have c1 := @Chunk.ws '\n' _ _ _ (by decide) hc
  have c2 := Chunk.rbrace c1
  obtain ⟨lines', k', hlines, hbody⟩ := instrLines_chunk (Func.instrs f) hv2.2 hpi c2
  have c3 := @Chunk.ws '\n' _ _ _ (by decide) hbody
  have c4 := Chunk.lbrace c3
  have c5 := @Chunk.ws ' ' _ _ _ (by decide) c4
  have c6 := chunk_word_str (Func.name f) (isCNAME_isIDENT _ hv2.1)
    (headNot_cons _ _ _ (by decide)) c5
  refine ⟨(Func.name f ++ " \x7b") :: lines' ++ ["\x7d"], k' + 1 + 1 + 1 + 1, ?_, ?_⟩
  · simp [print_func, hlines]
  · have he : ((((Func.name f ++ " \x7b") :: lines' ++ ["\x7d"]).map
          (fun l => l ++ "\n")).map String.data).flatten ++ cs =
        (Func.name f).data ++ ' ' :: '\x7b' :: '\n' ::
          ((((lines'.map (fun l => l ++ "\n")).map String.data).flatten) ++
            '\x7d' :: '\n' :: cs) := by
      simp only [List.map_cons, List.map_append, List.flatten_cons, List.flatten_append,
        String.data_append, data_nl, data_sp_lbrace, data_rbrace, List.map_nil,
        List.flatten_nil, List.append_assoc, List.cons_append, List.nil_append,
        List.append_nil]
    rw [he]
    have ht : funcToks f ++ ts =
        Tok.word (Func.name f) :: Tok.lbrace :: (bodyToks (Func.instrs f) ++ Tok.rbrace :: ts) := by
      simp [funcToks]
    rw [ht]
    exact c6

theorem print_prog_chunk (fs : List Func) (hv : fs.all validFunc = true)
    (hp : fs.all printableFunc = true) :
    ∃ lines k, print_prog fs = some lines ∧
      Chunk (((lines.map (fun l => l ++ "\n")).map String.data).flatten) (progToks fs) k := by
  induction fs with
  | nil => exact ⟨[], 0, rfl, by simpa using Chunk.nil⟩
  | cons f rest ih =>
    rw [List.all_cons, Bool.and_eq_true] at hv hp
    obtain ⟨linesR, kR, hR, hcR⟩ := ih hv.2 hp.2
    obtain ⟨linesF, k2, hF, hcF⟩ := print_func_chunk f hv.1 hp.1 hcR
    refine ⟨linesF ++ linesR, k2, ?_, ?_⟩
    · simp [print_prog, hF, hR]
    · have he : (((linesF ++ linesR).map (fun l => l ++ "\n")).map String.data).flatten =
          ((linesF.map (fun l => l ++ "\n")).map String.data).flatten ++
            ((linesR.map (fun l => l ++ "\n")).map String.data).flatten := by
        simp [List.map_append, List.flatten_append]
      rw [he]
      have ht : progToks (f :: rest) = funcToks f ++ progToks rest := by
        simp [progToks]
      rw [ht]
      exact hcF

theorem string_join_data_aux (l : List String) : ∀ s : String,
    (l.foldl (fun a b => a ++ b) s).data = s.data ++ (l.map String.data).flatten := by
  induction l with
  | nil => intro s; simp
  | cons x rest ih =>
    intro s
    rw [List.foldl_cons, ih (s ++ x)]
    simp [String.data_append]

theorem string_join_data (l : List String) :
    (String.join l).data = (l.map String.data).flatten := by
  show (l.foldl (fun a b => a ++ b) "").data = (l.map String.data).flatten
  rw [string_join_data_aux]
  rfl

/-- For a valid, printable program, printing succeeds and tokenizing the
printed text yields exactly the program's token rendering. -/
theorem toText_tokenize (p : Program) (hv : p.functions.all validFunc = true)
    (hp : p.functions.all printableFunc = true) :
    ∃ txt, toText p = some txt ∧ tokenize txt.data = some (progToks p.functions) := by
  obtain ⟨lines, k, hlines, hchunk⟩ := print_prog_chunk p.functions hv hp
  refine ⟨String.join (lines.map (fun l => l ++ "\n")), ?_, ?_⟩
  · unfold toText
    rw [hlines]
    rfl
  · rw [string_join_data]
    exact tokenize_of_chunk hchunk

/-! ## The parser on printed tokens -/

theorem pIdents_words_semi (args : List String) (rest : List Tok)
    (hargs : args.all isIDENT = true) :
    pIdents (args.map Tok.word ++ Tok.semi :: rest) = (args, Tok.semi :: rest) := by
  induction args with
  | nil => rfl
  | cons a args' ih =>
    rw [List.all_cons, Bool.and_eq_true] at hargs
    simp [pIdents, hargs.1, ih hargs.2]

theorem pConst_toks (d t : String) (v : Lit) (rest : List Tok)
    (hd : isIDENT d = true) (ht : isCNAME t = true) :
    pConst (instrToks (Instr.const d t v) ++ rest) = some (Instr.const d t v, rest) := by
  cases v with
  | int i =>
    simp [pConst, pIDENT, pCNAME, expect, pLit, hd, ht, litToks, instrToks,
      strToInt_intStr]
  | bool b =>
    cases b <;>
      simp [pConst, pIDENT, pCNAME, expect, pLit, hd, ht, litToks, instrToks]

theorem pVop_toks (d t op : String) (args : List String) (rest : List Tok)
    (hd : isIDENT d = true) (ht : isCNAME t = true) (hop : isCNAME op = true)
    (hargs : args.all isIDENT = true) :
    pVop (instrToks (Instr.vop d t op args) ++ rest) =
      some (Instr.vop d t op args, rest) := by
  have hids := pIdents_words_semi args rest hargs
  simp [pVop, pIDENT, pCNAME, expect, hd, ht, hop, instrToks, hids]

theorem pEop_toks (op : String) (args : List String) (rest : List Tok)
    (hop : isCNAME op = true) (hargs : args.all isIDENT = true) :
    pEop (instrToks (Instr.eop op args) ++ rest) = some (Instr.eop op args, rest) := by
  have hids := pIdents_words_semi args rest hargs
  simp [pEop, pCNAME, expect, hop, instrToks, hids]

theorem pLabel_toks (l : String) (rest : List Tok) (hl : isIDENT l = true) :
    pLabel (instrToks (Instr.label l) ++ rest) = some (Instr.label l, rest) := by
  simp [pLabel, pIDENT, expect, hl, instrToks]

theorem pConst_vop_none (d t op : String) (args : List String) (rest : List Tok)
    (hop : ¬ op = "const") :
    pConst (instrToks (Instr.vop d t op args) ++ rest) = none := by
  by_cases hd : isIDENT d
  · by_cases ht : isCNAME t
    · simp only [instrToks, pConst, pIDENT, pCNAME, expect, hd, ht, List.cons_append,
        List.append_assoc, if_pos, Option.bind_eq_bind, Option.some_bind, if_true]
      split
      · next heq =>
        rw [List.cons.injEq] at heq
        exact absurd (Tok.word.inj heq.1) hop
      · rfl
    · simp [instrToks, pConst, pIDENT, pCNAME, expect, hd, ht]
  · simp [instrToks, pConst, pIDENT, hd]

theorem pFlat_const (d t : String) (v : Lit) (rest : List Tok)
    (hd : isIDENT d = true) (ht : isCNAME t = true) :
    pFlat (instrToks (Instr.const d t v) ++ rest) = some (Instr.const d t v, rest) := by
  unfold pFlat
  rw [pConst_toks d t v rest hd ht]
  rfl

theorem pFlat_vop (d t op : String) (args : List String) (rest : List Tok)
    (hd : isIDENT d = true) (ht : isCNAME t = true) (hop : isCNAME op = true)
    (hargs : args.all isIDENT = true) (hne : ¬ op = "const") :
    pFlat (instrToks (Instr.vop d t op args) ++ rest) =
      some (Instr.vop d t op args, rest) := by
  unfold pFlat
  rw [pConst_vop_none d t op args rest hne, pVop_toks d t op args rest hd ht hop hargs]
  rfl

theorem pConst_eop_none (op : String) (args : List String) (rest : List Tok) :
    pConst (instrToks (Instr.eop op args) ++ rest) = none := by
  by_cases hop : isIDENT op
  · cases args with
    | nil => simp [instrToks, pConst, pIDENT, expect, hop]
    | cons a args' => simp [instrToks, pConst, pIDENT, expect, hop]
  · simp [instrToks, pConst, pIDENT, hop]

theorem pVop_eop_none (op : String) (args : List String) (rest : List Tok) :
    pVop (instrToks (Instr.eop op args) ++ rest) = none := by
  by_cases hop : isIDENT op
  · cases args with
    | nil => simp [instrToks, pVop, pIDENT, expect, hop]
    | cons a args' => simp [instrToks, pVop, pIDENT, expect, hop]
  · simp [instrToks, pVop, pIDENT, hop]

theorem pFlat_eop (op : String) (args : List String) (rest : List Tok)
    (hop : isCNAME op = true) (hargs : args.all isIDENT = true)
    (hne : ¬ op = "const") :
    pFlat (instrToks (Instr.eop op args) ++ rest) = some (Instr.eop op args, rest) := by
  unfold pFlat
  rw [pConst_eop_none op args rest, pVop_eop_none op args rest,
    pEop_toks op args rest hop hargs]
  rfl

theorem follow2Ok_cases (S : List Tok) (h : follow2Ok S) :
    (∃ S', S = Tok.rbrace :: S') ∨
    (∃ a S', S = Tok.word a :: Tok.colon :: S') ∨
    (∃ a S', S = Tok.word a :: Tok.semi :: S') ∨
    (∃ a b S', S = Tok.word a :: Tok.word b :: S') :=
  match S, h with
  | Tok.rbrace :: S', _ => Or.inl ⟨S', rfl⟩
  | Tok.word a :: Tok.colon :: S', _ => Or.inr (Or.inl ⟨a, S', rfl⟩)
  | Tok.word a :: Tok.semi :: S', _ => Or.inr (Or.inr (Or.inl ⟨a, S', rfl⟩))
  | Tok.word a :: Tok.word b :: S', _ => Or.inr (Or.inr (Or.inr ⟨a, b, S', rfl⟩))
  | [], h => h.elim
  | Tok.word _ :: [], h => h.elim
  | Tok.word _ :: Tok.num _ :: _, h => h.elim
  | Tok.word _ :: Tok.assign :: _, h => h.elim
  | Tok.word _ :: Tok.lbrace :: _, h => h.elim
  | Tok.word _ :: Tok.rbrace :: _, h => h.elim
  | Tok.word _ :: Tok.lparen :: _, h => h.elim
  | Tok.word _ :: Tok.rparen :: _, h => h.elim
  | Tok.num _ :: _, h => h.elim
  | Tok.colon :: _, h => h.elim
  | Tok.semi :: _, h => h.elim
  | Tok.assign :: _, h => h.elim
  | Tok.lbrace :: _, h => h.elim
  | Tok.lparen :: _, h => h.elim
  | Tok.rparen :: _, h => h.elim

theorem pEop_label_none (l : String) (S : List Tok) :
    pEop (Tok.word l :: Tok.colon :: S) = none := by
  by_cases hl : isCNAME l <;> simp [pEop, pCNAME, pIdents, expect, hl]

theorem pConst_label_none (l : String) (S : List Tok) (hS : follow2Ok S) :
    pConst (Tok.word l :: Tok.colon :: S) = none := by
  by_cases hl : isIDENT l
  · rcases follow2Ok_cases S hS with ⟨S', rfl⟩ | ⟨a, S', rfl⟩ | ⟨a, S', rfl⟩ |
      ⟨a, b, S', rfl⟩
    · simp [pConst, pIDENT, pCNAME, expect, hl]
    · by_cases ha : isCNAME a <;> simp [pConst, pIDENT, pCNAME, expect, hl, ha]
    · by_cases ha : isCNAME a <;> simp [pConst, pIDENT, pCNAME, expect, hl, ha]
    · by_cases ha : isCNAME a <;> simp [pConst, pIDENT, pCNAME, expect, hl, ha]
  · simp [pConst, pIDENT, hl]

theorem pVop_label_none (l : String) (S : List Tok) (hS : follow2Ok S) :
    pVop (Tok.word l :: Tok.colon :: S) = none := by
  by_cases hl : isIDENT l
  · rcases follow2Ok_cases S hS with ⟨S', rfl⟩ | ⟨a, S', rfl⟩ | ⟨a, S', rfl⟩ |
      ⟨a, b, S', rfl⟩
    · simp [pVop, pIDENT, pCNAME, expect, hl]
    · by_cases ha : isCNAME a <;> simp [pVop, pIDENT, pCNAME, expect, hl, ha]
    · by_cases ha : isCNAME a <;> simp [pVop, pIDENT, pCNAME, expect, hl, ha]
    · by_cases ha : isCNAME a <;> simp [pVop, pIDENT, pCNAME, expect, hl, ha]
  · simp [pVop, pIDENT, hl]

theorem pFlat_label (l : String) (S : List Tok) (hl : isIDENT l = true)
    (hS : follow2Ok S) :
    pFlat (Tok.word l :: Tok.colon :: S) = some (Instr.label l, S) := by
  unfold pFlat
  rw [pConst_label_none l S hS, pVop_label_none l S hS, pEop_label_none l S]
  simp [pLabel, pIDENT, expect, hl]

theorem pFunc_colon_none (g : Nat) (S : List Tok) : pFunc g (Tok.colon :: S) = none := by
  cases g with
  | zero => rfl
  | succ g' => simp [pFunc, pCNAME]

theorem pArgs_words_semi_shape (g : Nat) : ∀ (ws : List String) (rest : List Tok),
    ∃ (out : List Arg) (ws2 : List String),
      pArgs g (ws.map Tok.word ++ Tok.semi :: rest) =
        (out, ws2.map Tok.word ++ Tok.semi :: rest) := by
  induction g with
  | zero => intro ws rest; exact ⟨[], ws, rfl⟩
  | succ g' ih =>
    intro ws rest
    cases ws with
    | nil => exact ⟨[], [], by simp [pArgs, pArg]⟩
    | cons a ws' =>
      by_cases ha : isIDENT a
      · obtain ⟨out, ws2, h2⟩ := ih ws' rest
        exact ⟨Arg.mk a none :: out, ws2, by simp [pArgs, pArg, ha, h2]⟩
      · exact ⟨[], a :: ws', by simp [pArgs, pArg, ha]⟩

theorem pFunc_words_semi_none (g : Nat) (ws : List String) (rest : List Tok) :
    pFunc g (ws.map Tok.word ++ Tok.semi :: rest) = none := by
  cases g with
  | zero => rfl
  | succ g' =>
    cases ws with
    | nil => simp [pFunc, pCNAME]
    | cons a ws' =>
      by_cases ha : isCNAME a
      · obtain ⟨out, ws2, h2⟩ := pArgs_words_semi_shape (g' + 1) ws' rest
        cases ws2 with
        | nil => simp [pFunc, pCNAME, ha, h2]
        | cons b ws3 => simp [pFunc, pCNAME, ha, h2]
      · simp [pFunc, pCNAME, ha]

/-- One unfolding step of `pInstr`; definitional. -/
theorem pInstr_succ (g : Nat) (ts : List Tok) :
    pInstr (g + 1) ts =
      (match ts with
       | Tok.word "def" :: ts1 =>
         (match pFunc g ts1 with
          | some ((f, bad), ts2) => some ((Instr.nestedFunc f, bad), ts2)
          | none => (pFlat ts).map (fun ir => ((ir.1, false), ir.2)))
       | _ => (pFlat ts).map (fun ir => ((ir.1, false), ir.2))) := rfl

theorem pInstr_of_pFlat (g : Nat) (s : String) (T : List Tok)
    (hpf : pFunc g T = none) :
    pInstr (g + 1) (Tok.word s :: T) =
      (pFlat (Tok.word s :: T)).map (fun ir => ((ir.1, false), ir.2)) := by
  by_cases hs : s = "def"
  · subst hs
    have e : pInstr (g + 1) (Tok.word "def" :: T) =
        (match pFunc g T with
         | some ((f, bad), ts2) => some ((Instr.nestedFunc f, bad), ts2)
         | none => (pFlat (Tok.word "def" :: T)).map (fun ir => ((ir.1, false), ir.2))) := rfl
    rw [e, hpf]
  · rw [pInstr_succ]
    split
    · next heq =>
      rw [List.cons.injEq] at heq
      exact absurd (Tok.word.inj heq.1) hs
    · rfl

theorem pInstr_const (g : Nat) (d t : String) (v : Lit) (rest : List Tok)
    (hd : isIDENT d = true) (ht : isCNAME t = true) :
    pInstr (g + 1) (instrToks (Instr.const d t v) ++ rest) =
      some ((Instr.const d t v, false), rest) := by
  have hshape : instrToks (Instr.const d t v) ++ rest =
      Tok.word d :: (Tok.colon :: Tok.word t :: Tok.assign :: Tok.word "const" ::
        litToks v ++ [Tok.semi] ++ rest) := by
    simp [instrToks]
  have h2 := pInstr_of_pFlat g d (Tok.colon :: Tok.word t :: Tok.assign ::
    Tok.word "const" :: litToks v ++ [Tok.semi] ++ rest) (pFunc_colon_none g _)
  rw [hshape, h2, ← hshape, pFlat_const d t v rest hd ht]
  rfl

theorem pInstr_vop (g : Nat) (d t op : String) (args : List String) (rest : List Tok)
    (hd : isIDENT d = true) (ht : isCNAME t = true) (hop : isCNAME op = true)
    (hargs : args.all isIDENT = true) (hne : ¬ op = "const") :
    pInstr (g + 1) (instrToks (Instr.vop d t op args) ++ rest) =
      some ((Instr.vop d t op args, false), rest) := by
  have hshape : instrToks (Instr.vop d t op args) ++ rest =
      Tok.word d :: (Tok.colon :: Tok.word t :: Tok.assign :: Tok.word op ::
        args.map Tok.word ++ [Tok.semi] ++ rest) := by
    simp [instrToks]
  have h2 := pInstr_of_pFlat g d (Tok.colon :: Tok.word t :: Tok.assign ::
    Tok.word op :: args.map Tok.word ++ [Tok.semi] ++ rest) (pFunc_colon_none g _)
  rw [hshape, h2, ← hshape, pFlat_vop d t op args rest hd ht hop hargs hne]
  rfl

theorem pInstr_eop (g : Nat) (op : String) (args : List String) (rest : List Tok)
    (hop : isCNAME op = true) (hargs : args.all isIDENT = true)
    (hne : ¬ op = "const") :
    pInstr (g + 1) (instrToks (Instr.eop op args) ++ rest) =
      some ((Instr.eop op args, false), rest) := by
  have hshape : instrToks (Instr.eop op args) ++ rest =
      Tok.word op :: (args.map Tok.word ++ Tok.semi :: rest) := by
    simp [instrToks]
  have h2 := pInstr_of_pFlat g op (args.map Tok.word ++ Tok.semi :: rest)
    (pFunc_words_semi_none g args rest)
  rw [hshape, h2, ← hshape, pFlat_eop op args rest hop hargs hne]
  rfl

theorem pInstr_label (g : Nat) (l : String) (S : List Tok)
    (hl : isIDENT l = true) (hS : follow2Ok S) :
    pInstr (g + 1) (instrToks (Instr.label l) ++ S) = some ((Instr.label l, false), S) := by
  have hshape : instrToks (Instr.label l) ++ S = Tok.word l :: (Tok.colon :: S) := by
    simp [instrToks]
  have h2 := pInstr_of_pFlat g l (Tok.colon :: S) (pFunc_colon_none g S)
  rw [hshape, h2, pFlat_label l S hl hS]
  rfl

theorem pInstr_rbrace_none (g : Nat) (rest : List Tok) :
    pInstr g (Tok.rbrace :: rest) = none := by
  cases g with
  | zero => rfl
  | succ g' => rfl

theorem bodyToks_follow2Ok (is : List Instr) (rest : List Tok)
    (hp : is.all printableInstr = true) :
    follow2Ok (bodyToks is ++ Tok.rbrace :: rest) := by
  cases is with
  | nil => simp [bodyToks, follow2Ok]
  | cons i is' =>
    rw [List.all_cons, Bool.and_eq_true] at hp
    cases i with
    | const d t v => simp [bodyToks, instrToks, follow2Ok]
    | vop d t op args => simp [bodyToks, instrToks, follow2Ok]
    | eop op args =>
      cases args with
      | nil => simp [bodyToks, instrToks, follow2Ok]
      | cons a args' => simp [bodyToks, instrToks, follow2Ok]
    | label l => simp [bodyToks, instrToks, follow2Ok]
    | nestedFunc f => simp [printableInstr] at hp

/-- One unfolding step of `pInstrs`; definitional. -/
theorem pInstrs_succ (g : Nat) (ts : List Tok) :
    pInstrs (g + 1) ts =
      (match pInstr g ts with
       | none => (([], false), ts)
       | some ((i, bad), ts1) =>
         match pInstrs g ts1 with
         | ((is, bad2), rest) => ((i :: is, bad || bad2), rest)) := rfl

theorem pInstrs_printed (is : List Instr) : ∀ (g : Nat) (rest : List Tok),
    is.all validInstr = true → is.all printableInstr = true →
    is.length + 1 ≤ g →
    pInstrs g (bodyToks is ++ Tok.rbrace :: rest) = ((is, false), Tok.rbrace :: rest) := by
  induction is with
  | nil =>
    intro g rest _ _ hg
    obtain ⟨g', rfl⟩ : ∃ g', g = g' + 1 := ⟨g - 1, by omega⟩
    simp [bodyToks, pInstrs_succ, pInstr_rbrace_none]
  | cons i is' ih =>
    intro g rest hv hp hg
    simp only [List.length_cons] at hg
    obtain ⟨g', rfl⟩ : ∃ g', g = g' + 1 := ⟨g - 1, by omega⟩
    obtain ⟨g'', rfl⟩ : ∃ g'', g' = g'' + 1 := ⟨g' - 1, by omega⟩
    rw [List.all_cons, Bool.and_eq_true] at hv hp
    have hsplit : bodyToks (i :: is') ++ Tok.rbrace :: rest =
        instrToks i ++ (bodyToks is' ++ Tok.rbrace :: rest) := by
      simp [bodyToks]
    have hrec := ih (g'' + 1) rest hv.2 hp.2 (by omega)
    rw [hsplit, pInstrs_succ]
    cases i with
    | const d t v =>
      have h1 := hv.1
      simp only [validInstr, Bool.and_eq_true] at h1
      rw [pInstr_const g'' d t v (bodyToks is' ++ Tok.rbrace :: rest) h1.1 h1.2]
      dsimp only
      rw [hrec]
      rfl
    | vop d t op args =>
      have h1 := hv.1
      have h2 := hp.1
      simp only [validInstr, Bool.and_eq_true] at h1
      simp only [printableInstr, bne_iff_ne, ne_eq] at h2
      obtain ⟨⟨⟨hd, ht⟩, hop⟩, hargs⟩ := h1
      rw [pInstr_vop g'' d t op args (bodyToks is' ++ Tok.rbrace :: rest) hd ht hop hargs h2]
      dsimp only
      rw [hrec]
      rfl
    | eop op args =>
      have h1 := hv.1
      have h2 := hp.1
      simp only [validInstr, Bool.and_eq_true] at h1
      simp only [printableInstr, bne_iff_ne, ne_eq] at h2
      rw [pInstr_eop g'' op args (bodyToks is' ++ Tok.rbrace :: rest) h1.1 h1.2 h2]
      dsimp only
      rw [hrec]
      rfl
    | label l =>
      have h1 := hv.1
      simp only [validInstr] at h1
      rw [pInstr_label g'' l (bodyToks is' ++ Tok.rbrace :: rest) h1
        (bodyToks_follow2Ok is' rest hp.2)]
      dsimp only
      rw [hrec]
      rfl
    | nestedFunc f =>
      have h2 := hp.1
      simp [printableInstr] at h2

/-- One unfolding step of `pFunc`; definitional. -/
theorem pFunc_succ (g : Nat) (ts : List Tok) :
    pFunc (g + 1) ts =
      (match pCNAME ts with
       | none => none
       | some (n, ts1) =>
         match pArgs (g + 1) ts1 with
         | (args, ts2) =>
           match ts2 with
           | Tok.colon :: ts3 =>
             match pCNAME ts3 with
             | none => none
             | some (t, ts4) =>
               match ts4 with
               | Tok.lbrace :: ts5 =>
                 match pInstrs g ts5 with
                 | ((is, bad), ts6) =>
                   match ts6 with
                   | Tok.rbrace :: ts7 => some ((Func.mk n args (some t) is, bad), ts7)
                   | _ => none
               | _ => none
           | Tok.lbrace :: ts3 =>
             match pInstrs g ts3 with
             | ((is, bad), ts4) =>
               match ts4 with
               | Tok.rbrace :: ts5 =>
                 some ((Func.mk n args none is, is.isEmpty || bad), ts5)
               | _ => none
           | _ => none) := rfl

theorem pArgs_lbrace (g : Nat) (ts : List Tok) :
    pArgs g (Tok.lbrace :: ts) = ([], Tok.lbrace :: ts) := by
  cases g with
  | zero => rfl
  | succ g' => rfl

theorem pFunc_nil_none (g : Nat) : pFunc g [] = none := by
  cases g with
  | zero => rfl
  | succ g' => rfl

theorem pFunc_printed (g : Nat) (n : String) (is : List Instr) (rest : List Tok)
    (hn : isCNAME n = true) (hv : is.all validInstr = true)
    (hp : is.all printableInstr = true) (hg : is.length + 2 ≤ g) :
    pFunc g (funcToks (Func.mk n [] none is) ++ rest) =
      some ((Func.mk n [] none is, is.isEmpty), rest) := by
  obtain ⟨g', rfl⟩ : ∃ g', g = g' + 1 := ⟨g - 1, by omega⟩
  have hts : funcToks (Func.mk n [] none is) ++ rest =
      Tok.word n :: Tok.lbrace :: (bodyToks is ++ Tok.rbrace :: rest) := by
    simp [funcToks, Func.name, Func.instrs]
  have hpi := pInstrs_printed is g' rest hv hp (by omega)
  rw [hts, pFunc_succ]
  simp only [pCNAME, hn, if_true, pArgs_lbrace, hpi, Bool.or_false]

/-- One unfolding step of `pFuncs`; definitional. -/
theorem pFuncs_succ (g : Nat) (ts : List Tok) :
    pFuncs (g + 1) ts =
      (match pFunc (g + 1) ts with
       | none => (([], false), ts)
       | some ((f, bad), ts1) =>
         match pFuncs g ts1 with
         | ((fs, bad2), rest) => ((f :: fs, bad || bad2), rest)) := rfl

theorem pFuncs_printed (fs : List Func) : ∀ g : Nat,
    fs.all validFunc = true → fs.all printableFunc = true →
    (∀ f ∈ fs, (Func.instrs f).isEmpty = false) →
    fsFuel fs ≤ g →
    pFuncs g (progToks fs) = ((fs, false), []) := by
  induction fs with
  | nil =>
    intro g _ _ _ _
    cases g with
    | zero => rfl
    | succ g' =>
      rw [pFuncs_succ]
      have : progToks [] = [] := rfl
      rw [this, pFunc_nil_none]
  | cons f fs' ih =>
    intro g hv hp hne hg
    have hfuel : fsFuel (f :: fs') = (Func.instrs f).length + 2 + fsFuel fs' := rfl
    rw [hfuel] at hg
    obtain ⟨g', rfl⟩ : ∃ g', g = g' + 1 := ⟨g - 1, by omega⟩
    rw [List.all_cons, Bool.and_eq_true] at hv hp
    obtain ⟨n, as, rt, is⟩ := f
    have h1 := hp.1
    simp only [printableFunc, Func.args, Func.retType, Func.instrs,
      Bool.and_eq_true] at h1
    obtain ⟨⟨has, hrt⟩, hpins⟩ := h1
    have has' : as = [] := List.isEmpty_iff.mp has
    have hrt' : rt = none := Option.isNone_iff_eq_none.mp hrt
    subst has'
    subst hrt'
    have h2 := hv.1
    simp only [validFunc, Func.name, Func.instrs, Bool.and_eq_true] at h2
    obtain ⟨hn, hvins⟩ := h2
    have hisE : is.isEmpty = false :=
      hne (Func.mk n [] none is) (List.mem_cons_self _ _)
    have hsplit : progToks (Func.mk n [] none is :: fs') =
        funcToks (Func.mk n [] none is) ++ progToks fs' := by
      simp [progToks]
    have hgis : (Func.instrs (Func.mk n [] none is)).length = is.length := rfl
    rw [hgis] at hg
    have hpf := pFunc_printed (g' + 1) n is (progToks fs') hn hvins hpins (by omega)
    rw [hsplit, pFuncs_succ, hpf]
    dsimp only
    rw [ih g' hv.2 hp.2 (fun f0 hf0 => hne f0 (List.mem_cons_of_mem _ hf0)) (by omega)]
    dsimp only
    rw [hisE]
    rfl

theorem instrToks_length (i : Instr) (hp : printableInstr i = true) :
    1 ≤ (instrToks i).length := by
  cases i with
  | const d t v => simp [instrToks]
  | vop d t op args => simp [instrToks]
  | eop op args => simp [instrToks]
  | label l => simp [instrToks]
  | nestedFunc f => simp [printableInstr] at hp

theorem bodyToks_length (is : List Instr) (hp : is.all printableInstr = true) :
    is.length ≤ (bodyToks is).length := by
  induction is with
  | nil => simp [bodyToks]
  | cons i is' ih =>
    rw [List.all_cons, Bool.and_eq_true] at hp
    have h1 := instrToks_length i hp.1
    have h2 := ih hp.2
    have hsplit : bodyToks (i :: is') = instrToks i ++ bodyToks is' := by
      simp [bodyToks]
    rw [hsplit, List.length_append, List.length_cons]
    omega

theorem fsFuel_le (fs : List Func) (hp : fs.all printableFunc = true) :
    fsFuel fs ≤ (progToks fs).length := by
  induction fs with
  | nil => simp [fsFuel, progToks]
  | cons f fs' ih =>
    rw [List.all_cons, Bool.and_eq_true] at hp
    have h1 := hp.1
    simp only [printableFunc, Bool.and_eq_true] at h1
    have hb := bodyToks_length (Func.instrs f) h1.2
    have hsplit : progToks (f :: fs') = funcToks f ++ progToks fs' := by
      simp [progToks]
    have hf : (funcToks f).length = 3 + (bodyToks (Func.instrs f)).length := by
      simp [funcToks]
      omega
    have hfs : fsFuel (f :: fs') = (Func.instrs f).length + 2 + fsFuel fs' := rfl
    have h3 := ih hp.2
    rw [hsplit, List.length_append, hfs, hf]
    omega

theorem pImp_progToks (fs : List Func) : pImp (progToks fs) = none := by
  cases fs with
  | nil => rfl
  | cons f fs' =>
    have hsplit : progToks (f :: fs') =
        Tok.word (Func.name f) :: Tok.lbrace ::
          (bodyToks (Func.instrs f) ++ [Tok.rbrace] ++ progToks fs') := by
      simp [progToks, funcToks]
    rw [hsplit]
    unfold pImp
    split
    · next heq => simp at heq
    · rfl

theorem pImps_progToks (g : Nat) (fs : List Func) :
    pImps g (progToks fs) = ([], progToks fs) := by
  cases g with
  | zero => rfl
  | succ g' => simp [pImps, pImp_progToks]

/-! ## Soundness: strings stored by the parser are well-shaped tokens -/

theorem pIDENT_sound {ts : List Tok} {s : String} {r : List Tok}
    (h : pIDENT ts = some (s, r)) : isIDENT s = true := by
  cases ts with
  | nil => exact absurd h (by simp [pIDENT])
  | cons t ts' =>
    cases t with
    | word w =>
      have e : pIDENT (Tok.word w :: ts') =
          (if isIDENT w then some (w, ts') else none) := rfl
      rw [e] at h
      split_ifs at h with hw
      · simp only [Option.some.injEq, Prod.mk.injEq] at h
        obtain ⟨h1, -⟩ := h
        subst h1
        exact hw
    | num w => exact absurd h (by simp [pIDENT])
    | colon => exact absurd h (by simp [pIDENT])
    | semi => exact absurd h (by simp [pIDENT])
    | assign => exact absurd h (by simp [pIDENT])
    | lbrace => exact absurd h (by simp [pIDENT])
    | rbrace => exact absurd h (by simp [pIDENT])
    | lparen => exact absurd h (by simp [pIDENT])
    | rparen => exact absurd h (by simp [pIDENT])

theorem pCNAME_sound {ts : List Tok} {s : String} {r : List Tok}
    (h : pCNAME ts = some (s, r)) : isCNAME s = true := by
  cases ts with
  | nil => exact absurd h (by simp [pCNAME])
  | cons t ts' =>
    cases t with
    | word w =>
      have e : pCNAME (Tok.word w :: ts') =
          (if isCNAME w then some (w, ts') else none) := rfl
      rw [e] at h
      split_ifs at h with hw
      · simp only [Option.some.injEq, Prod.mk.injEq] at h
        obtain ⟨h1, -⟩ := h
        subst h1
        exact hw
    | num w => exact absurd h (by simp [pCNAME])
    | colon => exact absurd h (by simp [pCNAME])
    | semi => exact absurd h (by simp [pCNAME])
    | assign => exact absurd h (by simp [pCNAME])
    | lbrace => exact absurd h (by simp [pCNAME])
    | rbrace => exact absurd h (by simp [pCNAME])
    | lparen => exact absurd h (by simp [pCNAME])
    | rparen => exact absurd h (by simp [pCNAME])

theorem pIdents_sound : ∀ (ts : List Tok) (xs : List String) (rest : List Tok),
    pIdents ts = (xs, rest) → xs.all isIDENT = true := by
  intro ts
  induction ts with
  | nil =>
    intro xs rest h
    have e : pIdents ([] : List Tok) = (([] : List String), ([] : List Tok)) := rfl
    rw [e] at h
    injection h with h1 h2
    subst h1
    rfl
  | cons t ts' ih =>
    intro xs rest h
    cases t with
    | word s =>
      have e : pIdents (Tok.word s :: ts') =
          (if isIDENT s then
            match pIdents ts' with
            | (xs0, rest0) => (s :: xs0, rest0)
           else ([], Tok.word s :: ts')) := rfl
      rw [e] at h
      split_ifs at h with hs
      · rcases hx : pIdents ts' with ⟨xs', rest'⟩
        rw [hx] at h
        dsimp only at h
        injection h with h1 h2
        subst h1
        rw [List.all_cons, Bool.and_eq_true]
        exact ⟨hs, ih xs' rest' hx⟩
      · injection h with h1 h2
        subst h1
        rfl
    | num s =>
      have e : pIdents (Tok.num s :: ts') = ([], Tok.num s :: ts') := rfl
      rw [e] at h
      injection h with h1 h2
      subst h1
      rfl
    | colon =>
      have e : pIdents (Tok.colon :: ts') = ([], Tok.colon :: ts') := rfl
      rw [e] at h
      injection h with h1 h2
      subst h1
      rfl
    | semi =>
      have e : pIdents (Tok.semi :: ts') = ([], Tok.semi :: ts') := rfl
      rw [e] at h
      injection h with h1 h2
      subst h1
      rfl
    | assign =>
      have e : pIdents (Tok.assign :: ts') = ([], Tok.assign :: ts') := rfl
      rw [e] at h
      injection h with h1 h2
      subst h1
      rfl
    | lbrace =>
      have e : pIdents (Tok.lbrace :: ts') = ([], Tok.lbrace :: ts') := rfl
      rw [e] at h
      injection h with h1 h2
      subst h1
      rfl
    | rbrace =>
      have e : pIdents (Tok.rbrace :: ts') = ([], Tok.rbrace :: ts') := rfl
      rw [e] at h
      injection h with h1 h2
      subst h1
      rfl
    | lparen =>
      have e : pIdents (Tok.lparen :: ts') = ([], Tok.lparen :: ts') := rfl
      rw [e] at h
      injection h with h1 h2
      subst h1
      rfl
    | rparen =>
      have e : pIdents (Tok.rparen :: ts') = ([], Tok.rparen :: ts') := rfl
      rw [e] at h
      injection h with h1 h2
      subst h1
      rfl

theorem pConst_sound {ts : List Tok} {i : Instr} {rest : List Tok}
    (h : pConst ts = some (i, rest)) : validInstr i = true := by
  unfold pConst at h
  simp only [Option.bind_eq_bind] at h
  cases h1 : pIDENT ts with
  | none => rw [h1] at h; simp at h
  | some pr1 =>
    obtain ⟨d, ts1⟩ := pr1
    rw [h1] at h
    simp only [Option.some_bind] at h
    cases h2 : expect Tok.colon ts1 with
    | none => rw [h2] at h; simp at h
    | some ts2 =>
      rw [h2] at h
      simp only [Option.some_bind] at h
      cases h3 : pCNAME ts2 with
      | none => rw [h3] at h; simp at h
      | some pr2 =>
        obtain ⟨t, ts3⟩ := pr2
        rw [h3] at h
        simp only [Option.some_bind] at h
        cases h4 : expect Tok.assign ts3 with
        | none => rw [h4] at h; simp at h
        | some ts4 =>
          rw [h4] at h
          simp only [Option.some_bind] at h
          split at h
          · next ts5 =>
            cases h5 : pLit ts5 with
            | none => rw [h5] at h; simp at h
            | some pr3 =>
              obtain ⟨v, ts6⟩ := pr3
              rw [h5] at h
              simp only [Option.some_bind] at h
              cases h6 : expect Tok.semi ts6 with
              | none => rw [h6] at h; simp at h
              | some ts7 =>
                rw [h6] at h
                simp only [Option.some_bind, Option.pure_def, Option.some.injEq,
                  Prod.mk.injEq] at h
                obtain ⟨h7, -⟩ := h
                subst h7
                simp only [validInstr, Bool.and_eq_true]
                exact ⟨pIDENT_sound h1, pCNAME_sound h3⟩
          · simp at h

theorem pVop_sound {ts : List Tok} {i : Instr} {rest : List Tok}
    (h : pVop ts = some (i, rest)) : validInstr i = true := by
  unfold pVop at h
  simp only [Option.bind_eq_bind] at h
  cases h1 : pIDENT ts with
  | none => rw [h1] at h; simp at h
  | some pr1 =>
    obtain ⟨d, ts1⟩ := pr1
    rw [h1] at h
    simp only [Option.some_bind] at h
    cases h2 : expect Tok.colon ts1 with
    | none => rw [h2] at h; simp at h
    | some ts2 =>
      rw [h2] at h
      simp only [Option.some_bind] at h
      cases h3 : pCNAME ts2 with
      | none => rw [h3] at h; simp at h
      | some pr2 =>
        obtain ⟨t, ts3⟩ := pr2
        rw [h3] at h
        simp only [Option.some_bind] at h
        cases h4 : expect Tok.assign ts3 with
        | none => rw [h4] at h; simp at h
        | some ts4 =>
          rw [h4] at h
          simp only [Option.some_bind] at h
          cases h5 : pCNAME ts4 with
          | none => rw [h5] at h; simp at h
          | some pr3 =>
            obtain ⟨op, ts5⟩ := pr3
            rw [h5] at h
            simp only [Option.some_bind] at h
            rcases h6 : pIdents ts5 with ⟨args, ts6⟩
            rw [h6] at h
            dsimp only at h
            cases h7 : expect Tok.semi ts6 with
            | none => rw [h7] at h; simp at h
            | some ts7 =>
              rw [h7] at h
              simp only [Option.some_bind, Option.pure_def, Option.some.injEq,
                Prod.mk.injEq] at h
              obtain ⟨h8, -⟩ := h
              subst h8
              simp only [validInstr, Bool.and_eq_true]
              exact ⟨⟨⟨pIDENT_sound h1, pCNAME_sound h3⟩, pCNAME_sound h5⟩,
                pIdents_sound ts5 args ts6 h6⟩

theorem pEop_sound {ts : List Tok} {i : Instr} {rest : List Tok}
    (h : pEop ts = some (i, rest)) : validInstr i = true := by
  unfold pEop at h
  simp only [Option.bind_eq_bind] at h
  cases h1 : pCNAME ts with
  | none => rw [h1] at h; simp at h
  | some pr1 =>
    obtain ⟨op, ts1⟩ := pr1
    rw [h1] at h
    simp only [Option.some_bind] at h
    rcases h2 : pIdents ts1 with ⟨args, ts2⟩
    rw [h2] at h
    dsimp only at h
    cases h3 : expect Tok.semi ts2 with
    | none => rw [h3] at h; simp at h
    | some ts3 =>
      rw [h3] at h
      simp only [Option.some_bind, Option.pure_def, Option.some.injEq,
        Prod.mk.injEq] at h
      obtain ⟨h4, -⟩ := h
      subst h4
      simp only [validInstr, Bool.and_eq_true]
      exact ⟨pCNAME_sound h1, pIdents_sound ts1 args ts2 h2⟩

theorem pLabel_sound {ts : List Tok} {i : Instr} {rest : List Tok}
    (h : pLabel ts = some (i, rest)) : validInstr i = true := by
  unfold pLabel at h
  simp only [Option.bind_eq_bind] at h
  cases h1 : pIDENT ts with
  | none => rw [h1] at h; simp at h
  | some pr1 =>
    obtain ⟨l, ts1⟩ := pr1
    rw [h1] at h
    simp only [Option.some_bind] at h
    cases h2 : expect Tok.colon ts1 with
    | none => rw [h2] at h; simp at h
    | some ts2 =>
      rw [h2] at h
      simp only [Option.some_bind, Option.pure_def, Option.some.injEq,
        Prod.mk.injEq] at h
      obtain ⟨h3, -⟩ := h
      subst h3
      simp only [validInstr]
      exact pIDENT_sound h1

theorem pFlat_sound {ts : List Tok} {i : Instr} {rest : List Tok}
    (h : pFlat ts = some (i, rest)) : validInstr i = true := by
  unfold pFlat at h
  cases hc : pConst ts with
  | some pr =>
    obtain ⟨i0, r0⟩ := pr
    rw [hc] at h
    simp only [Option.some_orElse] at h
    simp only [Option.some.injEq, Prod.mk.injEq] at h
    obtain ⟨h1, -⟩ := h
    subst h1
    exact pConst_sound hc
  | none =>
    rw [hc] at h
    simp only [Option.none_orElse] at h
    cases hv : pVop ts with
    | some pr =>
      obtain ⟨i0, r0⟩ := pr
      rw [hv] at h
      simp only [Option.some_orElse] at h
      simp only [Option.some.injEq, Prod.mk.injEq] at h
      obtain ⟨h1, -⟩ := h
      subst h1
      exact pVop_sound hv
    | none =>
      rw [hv] at h
      simp only [Option.none_orElse] at h
      cases he : pEop ts with
      | some pr =>
        obtain ⟨i0, r0⟩ := pr
        rw [he] at h
        simp only [Option.some_orElse] at h
        simp only [Option.some.injEq, Prod.mk.injEq] at h
        obtain ⟨h1, -⟩ := h
        subst h1
        exact pEop_sound he
      | none =>
        rw [he] at h
        simp only [Option.none_orElse] at h
        exact pLabel_sound h

/-- Soundness of the fuel-indexed parsers: every parsed function is valid,
and a function whose crash flag is `false` and whose return type is absent
has at least one instruction; every parsed instruction is valid. -/
theorem parser_sound (g : Nat) :
    (∀ ts f flag rest, pFunc g ts = some ((f, flag), rest) →
      validFunc f = true ∧ (flag = false → Func.retType f = none →
        (Func.instrs f).isEmpty = false)) ∧
    (∀ ts i flag rest, pInstr g ts = some ((i, flag), rest) → validInstr i = true) ∧
    (∀ ts is flag rest, pInstrs g ts = ((is, flag), rest) → is.all validInstr = true) := by
  induction g with
  | zero =>
    refine ⟨?_, ?_, ?_⟩
    · intro ts f flag rest h
      exact absurd h (by rw [show pFunc 0 ts = none from rfl]; simp)
    · intro ts i flag rest h
      exact absurd h (by rw [show pInstr 0 ts = none from rfl]; simp)
    · intro ts is flag rest h
      have e : pInstrs 0 ts = (([], false), ts) := rfl
      rw [e] at h
      injection h with h1 h2
      injection h1 with h3 h4
      subst h3
      rfl
  | succ g' ih =>
    obtain ⟨ihF, ihI, ihIs⟩ := ih
    refine ⟨?_, ?_, ?_⟩
    · intro ts f flag rest h
      rw [pFunc_succ] at h
      cases h1 : pCNAME ts with
      | none => rw [h1] at h; simp at h
      | some pr =>
        obtain ⟨n, ts1⟩ := pr
        rw [h1] at h
        dsimp only at h
        rcases h2 : pArgs (g' + 1) ts1 with ⟨args, ts2⟩
        rw [h2] at h
        dsimp only at h
        cases ts2 with
        | nil => simp at h
        | cons t2 ts3 =>
          cases t2 with
          | colon =>
            dsimp only at h
            cases h3 : pCNAME ts3 with
            | none => rw [h3] at h; simp at h
            | some pr2 =>
              obtain ⟨t, ts4⟩ := pr2
              rw [h3] at h
              dsimp only at h
              cases ts4 with
              | nil => simp at h
              | cons t4 ts5 =>
                cases t4 with
                | lbrace =>
                  dsimp only at h
                  rcases h4 : pInstrs g' ts5 with ⟨⟨is, bad⟩, ts6⟩
                  rw [h4] at h
                  dsimp only at h
                  cases ts6 with
                  | nil => simp at h
                  | cons t6 ts7 =>
                    cases t6 with
                    | rbrace =>
                      dsimp only at h
                      simp only [Option.some.injEq, Prod.mk.injEq] at h
                      obtain ⟨⟨hf, hflag⟩, -⟩ := h
                      subst hf
                      constructor
                      · simp only [validFunc, Func.name, Func.instrs,
                          Bool.and_eq_true]
                        exact ⟨pCNAME_sound h1, ihIs ts5 is bad _ h4⟩
                      · intro hfl hrt
                        simp [Func.retType] at hrt
                    | word w => simp at h
                    | num w => simp at h
                    | colon => simp at h
                    | semi => simp at h
                    | assign => simp at h
                    | lbrace => simp at h
                    | lparen => simp at h
                    | rparen => simp at h
                | word w => simp at h
                | num w => simp at h
                | colon => simp at h
                | semi => simp at h
                | assign => simp at h
                | rbrace => simp at h
                | lparen => simp at h
                | rparen => simp at h
          | lbrace =>
            dsimp only at h
            rcases h4 : pInstrs g' ts3 with ⟨⟨is, bad⟩, ts4⟩
            rw [h4] at h
            dsimp only at h
            cases ts4 with
            | nil => simp at h
            | cons t4 ts5 =>
              cases t4 with
              | rbrace =>
                dsimp only at h
                simp only [Option.some.injEq, Prod.mk.injEq] at h
                obtain ⟨⟨hf, hflag⟩, -⟩ := h
                subst hf
                constructor
                · simp only [validFunc, Func.name, Func.instrs, Bool.and_eq_true]
                  exact ⟨pCNAME_sound h1, ihIs ts3 is bad _ h4⟩
                · intro hfl hrt
                  subst hflag
                  have hb := Bool.or_eq_false_iff.mp hfl
                  simpa [Func.instrs] using hb.1
              | word w => simp at h
              | num w => simp at h
              | colon => simp at h
              | semi => simp at h
              | assign => simp at h
              | lbrace => simp at h
              | lparen => simp at h
              | rparen => simp at h
          | word w => simp at h
          | num w => simp at h
          | semi => simp at h
          | assign => simp at h
          | rbrace => simp at h
          | lparen => simp at h
          | rparen => simp at h
    · intro ts i flag rest h
      rw [pInstr_succ] at h
      split at h
      · next ts1 =>
        cases hF : pFunc g' ts1 with
        | some pr =>
          obtain ⟨⟨f0, bad0⟩, ts2⟩ := pr
          rw [hF] at h
          dsimp only at h
          simp only [Option.some.injEq, Prod.mk.injEq] at h
          obtain ⟨⟨hi, -⟩, -⟩ := h
          subst hi
          rfl
        | none =>
          rw [hF] at h
          dsimp only at h
          obtain ⟨⟨i0, r0⟩, hfl, heq⟩ := Option.map_eq_some'.mp h
          simp only [Prod.mk.injEq] at heq
          obtain ⟨⟨hi, -⟩, -⟩ := heq
          subst hi
          exact pFlat_sound hfl
      · obtain ⟨⟨i0, r0⟩, hfl, heq⟩ := Option.map_eq_some'.mp h
        simp only [Prod.mk.injEq] at heq
        obtain ⟨⟨hi, -⟩, -⟩ := heq
        subst hi
        exact pFlat_sound hfl
    · intro ts is flag rest h
      rw [pInstrs_succ] at h
      cases hI : pInstr g' ts with
      | none =>
        rw [hI] at h
        dsimp only at h
        injection h with h1 h2
        injection h1 with h3 h4
        subst h3
        rfl
      | some pr =>
        obtain ⟨⟨i, bad⟩, ts1⟩ := pr
        rw [hI] at h
        dsimp only at h
        rcases hIs : pInstrs g' ts1 with ⟨⟨is', bad2⟩, rest'⟩
        rw [hIs] at h
        dsimp only at h
        injection h with h1 h2
        injection h1 with h3 h4
        subst h3
        rw [List.all_cons, Bool.and_eq_true]
        exact ⟨ihI ts i bad ts1 hI, ihIs ts1 is' bad2 rest' hIs⟩

theorem pFuncs_sound (g : Nat) : ∀ ts fs flag rest, pFuncs g ts = ((fs, flag), rest) →
    fs.all validFunc = true ∧
    (flag = false → ∀ f ∈ fs, Func.retType f = none →
      (Func.instrs f).isEmpty = false) := by
  induction g with
  | zero =>
    intro ts fs flag rest h
    have e : pFuncs 0 ts = (([], false), ts) := rfl
    rw [e] at h
    injection h with h1 h2
    injection h1 with h3 h4
    subst h3
    exact ⟨rfl, fun _ f hf => absurd hf (List.not_mem_nil f)⟩
  | succ g' ih =>
    intro ts fs flag rest h
    rw [pFuncs_succ] at h
    cases hF : pFunc (g' + 1) ts with
    | none =>
      rw [hF] at h
      dsimp only at h
      injection h with h1 h2
      injection h1 with h3 h4
      subst h3
      exact ⟨rfl, fun _ f hf => absurd hf (List.not_mem_nil f)⟩
    | some pr =>
      obtain ⟨⟨f, bad⟩, ts1⟩ := pr
      rw [hF] at h
      dsimp only at h
      rcases hFs : pFuncs g' ts1 with ⟨⟨fs', bad2⟩, rest'⟩
      rw [hFs] at h
      dsimp only at h
      injection h with h1 h2
      injection h1 with h3 h4
      subst h3
      subst h4
      have hsound := (parser_sound (g' + 1)).1 ts f bad ts1 hF
      have hrec := ih ts1 fs' bad2 rest' hFs
      constructor
      · rw [List.all_cons, Bool.and_eq_true]
        exact ⟨hsound.1, hrec.1⟩
      · intro hflag f0 hf0 hrt
        have hb := Bool.or_eq_false_iff.mp hflag
        rcases List.mem_cons.mp hf0 with rfl | hmem
        · exact hsound.2 hb.1 hrt
        · exact hrec.2 hb.2 f0 hmem hrt

theorem parseText_ok_sound (txt : String) (p : Program)
    (h : parseText txt = Except.ok p) :
    p.functions.all validFunc = true ∧
    ∀ f ∈ p.functions, Func.retType f = none → (Func.instrs f).isEmpty = false := by
  unfold parseText at h
  cases ht : tokenize txt.data with
  | none => rw [ht] at h; simp at h
  | some ts =>
    rw [ht] at h
    dsimp only at h
    rcases hs : pStart (ts.length + 1) ts with ⟨⟨ms, fs, bad⟩, rem⟩
    cases rem with
    | cons t r => rw [hs] at h; dsimp only at h; simp at h
    | nil =>
      rw [hs] at h
      dsimp only at h
      cases bad with
      | true => simp at h
      | false =>
        rw [if_neg Bool.false_ne_true] at h
        injection h with h1
        unfold pStart at hs
        rcases hi : pImps (ts.length + 1) ts with ⟨ms', ts1⟩
        rw [hi] at hs
        dsimp only at hs
        rcases hf : pFuncs (ts.length + 1) ts1 with ⟨⟨fs', bad'⟩, ts2⟩
        rw [hf] at hs
        dsimp only at hs
        injection hs with hs1 hs2
        injection hs1 with hs3 hs4
        injection hs4 with hs5 hs6
        subst hs5
        subst hs6
        subst hs2
        have := pFuncs_sound (ts.length + 1) ts1 fs' false [] hf
        rw [← h1]
        exact ⟨this.1, this.2 rfl⟩

theorem parse_bril_ok_iff (txt : String) (p : Program) :
    parse_bril txt = Except.ok p ↔ parseText txt = Except.ok p := by
  unfold parse_bril
  cases h : parseText txt with
  | error e =>
    constructor
    · intro hh; simp at hh
    · intro hh; simp at hh
  | ok q =>
    dsimp only
    rw [parseDups_eq_nil]

/-- A root-level duplicate in the claim's original form never appears on a
printed program: the amended round trip.  (Glue between `parse_bril` and
`parseText` on the printed text.) -/
theorem parse_bril_printed (p : Program)
    (hv : p.functions.all validFunc = true)
    (hp : p.functions.all printableFunc = true)
    (hne : ∀ f ∈ p.functions, (Func.instrs f).isEmpty = false)
    (s : String) (htok : tokenize s.data = some (progToks p.functions)) :
    parse_bril s = Except.ok (Program.mk none p.functions) := by
  rw [parse_bril_ok_iff]
  unfold parseText
  rw [htok]
  dsimp only
  unfold pStart
  rw [pImps_progToks]
  dsimp only
  rw [pFuncs_printed p.functions ((progToks p.functions).length + 1) hv hp hne
    (le_trans (fsFuel_le p.functions hp) (Nat.le_succ _))]
  rfl

/-- C6, counterexample to the claim as stated: the round trip is claimed
for every Program the transformer produces whose function headers carry no
arguments and no return type.  The program parsed from
`main { const x; }` qualifies — its single function is `main` with no args
and no return type, and its body is the effect operation `const x`
(classified as `eop` because there is no `:`/`=`) — yet the pretty-printer
raises `KeyError` on it (`instr_to_string` takes the `instr['op'] ==
'const'` branch and reads the missing `dest`/`type`/`value` keys), so no
printed text exists to re-parse. -/
theorem c6_counterexample :
    ¬ (∀ (txt : String) (p : Program), parse_bril txt = Except.ok p →
        p.functions.all trivialHeader = true →
        ∃ (s : String) (q : Program), toText p = some s ∧
          parse_bril s = Except.ok q ∧
          q.functions.map Func.name = p.functions.map Func.name ∧
          q.functions.map Func.instrs = p.functions.map Func.instrs) := by
  intro hall
  obtain ⟨s, q, hs, -⟩ := hall "main \x7b const x; \x7d"
    (Program.mk none [Func.mk "main" [] none [Instr.eop "const" ["x"]]]) rfl rfl
  have hnone : toText
      (Program.mk none [Func.mk "main" [] none [Instr.eop "const" ["x"]]]) = none := rfl
  rw [hnone] at hs
  exact Option.noConfusion hs

/-- C6, amended: for every Program produced by `parse_bril` all of whose
functions are printable — headers with no arguments and no return type, and
no instruction the printer chokes on (no value/effect op named `const`, no
nested function record) — printing succeeds and re-parsing the printed text
yields a program with literally the same function list (same names, same
instruction lists). -/
theorem c6_roundtrip_amended (txt : String) (p : Program)
    (hparse : parse_bril txt = Except.ok p)
    (hprint : printableProg p = true) :
    ∃ (s : String) (q : Program), toText p = some s ∧
      parse_bril s = Except.ok q ∧ q.functions = p.functions := by
  have hpt : parseText txt = Except.ok p := (parse_bril_ok_iff txt p).mp hparse
  obtain ⟨hv, hne⟩ := parseText_ok_sound txt p hpt
  have hp : p.functions.all printableFunc = true := hprint
  obtain ⟨s, hs, htok⟩ := toText_tokenize p hv hp
  have hne' : ∀ f ∈ p.functions, (Func.instrs f).isEmpty = false := by
    intro f hf
    have hpf : printableFunc f = true := List.all_eq_true.mp hp f hf
    simp only [printableFunc, Bool.and_eq_true] at hpf
    exact hne f hf (Option.isNone_iff_eq_none.mp hpf.1.2)
  exact ⟨s, Program.mk none p.functions, hs,
    parse_bril_printed p hv hp hne' s htok, rfl⟩

/-- Witness for C6: the one-function program `main` with a single `const`
instruction satisfies the amended theorem's hypotheses, and the round trip
goes through. -/
theorem c6_roundtrip_amended_witness :
    parse_bril "main \x7b\n  v: int = const 4;\n\x7d\n" = Except.ok
      (Program.mk none [Func.mk "main" [] none [Instr.const "v" "int" (Lit.int 4)]]) ∧
    printableProg
      (Program.mk none [Func.mk "main" [] none [Instr.const "v" "int" (Lit.int 4)]]) = true ∧
    ∃ (s : String) (q : Program),
      toText (Program.mk none
        [Func.mk "main" [] none [Instr.const "v" "int" (Lit.int 4)]]) = some s ∧
      parse_bril s = Except.ok q ∧
      q.functions = (Program.mk none
        [Func.mk "main" [] none [Instr.const "v" "int" (Lit.int 4)]]).functions :=
  ⟨rfl, rfl, c6_roundtrip_amended "main \x7b\n  v: int = const 4;\n\x7d\n"
    (Program.mk none [Func.mk "main" [] none [Instr.const "v" "int" (Lit.int 4)]])
    rfl rfl⟩

end Briltxt
